import Mathlib

/-!
Verification of the GeographicLib ECEF coordinate transform against its
specification.  The repository ships only the header (src/ECEF.hpp), which
declares the class, its derived ellipsoid parameters and the inline helper
functions; the bodies of Forward and Reverse live in ECEF.cpp, which is not
part of the source tree here.  Accordingly the transforms are modelled from
the specification over the real numbers: Forward by its closed formula
(spec section 4.2), Reverse by the behavioural contract that fully
determines its output (spec section 4.3, requirement 4: among all
mathematically valid latitude/height pairs return the one minimizing the
absolute height, ties broken towards positive latitude, and longitude 0 on
the polar axis).  The extreme-radius rescaling step of the spec is a
floating-point overflow guard; over the exact reals it is semantically the
identity and is therefore not reflected in the model.
-/

open Set
open scoped Real

namespace GeographicLib

/-- Modelled from the spec: the immutable ellipsoid record, built from the
equatorial radius and the inverse flattening (section 3).  The derived
quantities are provided as functions below. -/
structure ECEFModel where
  a : ℝ
  invf : ℝ

namespace ECEFModel

/-- Modelled from the spec: flattening, 0 for invf non-positive (sphere). -/
noncomputable def f (m : ECEFModel) : ℝ := if m.invf ≤ 0 then 0 else 1 / m.invf

/-- Modelled from the spec: first eccentricity squared, e2 = f (2 - f). -/
noncomputable def e2 (m : ECEFModel) : ℝ := m.f * (2 - m.f)

/-- Modelled from the spec: e4 = e2 squared. -/
noncomputable def e4 (m : ECEFModel) : ℝ := m.e2 ^ 2

/-- Modelled from the spec: complement e2m = 1 - e2. -/
noncomputable def e2m (m : ECEFModel) : ℝ := 1 - m.e2

end ECEFModel

namespace ECEF

/-- Signed cube root, translated from the inline helper in src/ECEF.hpp
(lines 50-53): take the real power 1/3 of the absolute value and restore
the sign. -/
noncomputable def cbrt (x : ℝ) : ℝ :=
  if x < 0 then -(|x| ^ ((1 : ℝ) / 3)) else |x| ^ ((1 : ℝ) / 3)

end ECEF

/-- Radius of curvature in the prime vertical at geographic latitude phi
(radians): N = a / sqrt (1 - e2 sin^2 phi). -/
noncomputable def Nrad (m : ECEFModel) (phi : ℝ) : ℝ :=
  m.a / Real.sqrt (1 - m.e2 * Real.sin phi ^ 2)

/-- Modelled from the spec: geodetic (degrees, meters) to ECEF, section 4.2.
The cosine of the latitude is taken to be exactly 0 at the poles. -/
noncomputable def Forward (m : ECEFModel) (lat lon h : ℝ) : ℝ × ℝ × ℝ :=
  ((Nrad m (lat * π / 180) + h) * (if |lat| = 90 then 0 else Real.cos (lat * π / 180)) *
      Real.cos (lon * π / 180),
   (Nrad m (lat * π / 180) + h) * (if |lat| = 90 then 0 else Real.cos (lat * π / 180)) *
      Real.sin (lon * π / 180),
   (Nrad m (lat * π / 180) * m.e2m + h) * Real.sin (lat * π / 180))

/-- Solutions of the reverse problem in the meridian plane: pairs of a
latitude phi (radians, in the closed quarter-circle range) and a height h
whose forward image has cylindrical radius R and axial coordinate z. -/
def SolSet (m : ECEFModel) (R z : ℝ) : Set (ℝ × ℝ) :=
  {p | p.1 ∈ Icc (-(π / 2)) (π / 2) ∧ R = (Nrad m p.1 + p.2) * Real.cos p.1 ∧
    z = (Nrad m p.1 * m.e2m + p.2) * Real.sin p.1}

/-- Solutions minimizing the absolute height, the primary tie-break
criterion of the spec (section 4.3, requirement 4). -/
def MinSet (m : ECEFModel) (R z : ℝ) : Set (ℝ × ℝ) :=
  {p ∈ SolSet m R z | ∀ q ∈ SolSet m R z, |p.2| ≤ |q.2|}

/-- Latitude selected by the reverse transform: the largest latitude among
the minimizers, implementing the secondary tie-break (prefer positive
latitude) of the spec. -/
noncomputable def phiStar (m : ECEFModel) (R z : ℝ) : ℝ :=
  sSup (Prod.fst '' MinSet m R z)

/-- Height of the solution with latitude phi: read off from whichever of
the two defining equations is non-degenerate at phi. -/
noncomputable def hOfPhi (m : ECEFModel) (R z phi : ℝ) : ℝ :=
  if Real.cos phi = 0 then z / Real.sin phi - Nrad m phi * m.e2m
  else R / Real.cos phi - Nrad m phi

/-- Two-argument arctangent via the complex argument, with value in the
half-open interval from -pi (exclusive) to pi (inclusive). -/
noncomputable def atan2 (y x : ℝ) : ℝ := Complex.arg ⟨x, y⟩

/-- Modelled from the spec: ECEF to geodetic (degrees, meters), section 4.3.
The output is the canonical solution: among all valid latitude/height pairs
the one minimizing the absolute height, ties broken towards positive
latitude; the longitude is the planar arctangent, conventionally 0 on the
polar axis. -/
noncomputable def Reverse (m : ECEFModel) (x y z : ℝ) : ℝ × ℝ × ℝ :=
  (phiStar m (Real.sqrt (x ^ 2 + y ^ 2)) z * 180 / π,
   if Real.sqrt (x ^ 2 + y ^ 2) = 0 then 0 else atan2 y x * 180 / π,
   hOfPhi m (Real.sqrt (x ^ 2 + y ^ 2)) z (phiStar m (Real.sqrt (x ^ 2 + y ^ 2)) z))

/-- Polar semi-minor axis b = a sqrt (1 - e2). -/
noncomputable def bAxis (m : ECEFModel) : ℝ := m.a * Real.sqrt m.e2m

/-- Concrete ellipsoid used for witnesses and counterexamples: a = 2 and
inverse flattening 2, so f = 1/2, e2 = 3/4, e2m = 1/4 and b = 1. -/
def mEx : ECEFModel := ⟨2, 2⟩

/-- Concrete sphere (non-positive inverse flattening) used for witnesses
and counterexamples: a = 2, f = 0, e2 = 0. -/
def mSph : ECEFModel := ⟨2, 0⟩

/-- Points of the meridian ellipse, in the polynomial form
e2m q1^2 + q2^2 = a^2 e2m obtained by clearing denominators in
q1^2 / a^2 + q2^2 / b^2 = 1. -/
def OnEllipse (m : ECEFModel) (q : ℝ × ℝ) : Prop :=
  m.e2m * q.1 ^ 2 + q.2 ^ 2 = m.a ^ 2 * m.e2m

/-- Surface point of the meridian ellipse at geographic latitude phi
(radians): the foot of the ellipsoid normal through any point of that
normal line. -/
noncomputable def Pmer (m : ECEFModel) (phi : ℝ) : ℝ × ℝ :=
  (Nrad m phi * Real.cos phi, Nrad m phi * m.e2m * Real.sin phi)

/-- Valid latitude/height pair for a given ECEF triple, in the words of the
spec: a geodetic latitude (degrees) and height that Forward maps back to
the triple for some longitude. -/
def IsValidPair (m : ECEFModel) (x y z lat h : ℝ) : Prop :=
  lat ∈ Icc (-90 : ℝ) 90 ∧ ∃ lon, Forward m lat lon h = (x, y, z)

/-- Squared distance from the meridian-plane point (R, z) to the point of
the meridian ellipse with eccentric-angle parameter t. -/
noncomputable def distSq (m : ECEFModel) (R z t : ℝ) : ℝ :=
  (R - m.a * Real.cos t) ^ 2 + (z - bAxis m * Real.sin t) ^ 2

end GeographicLib

namespace GeographicLib

theorem mEx_a : mEx.a = 2 := rfl

theorem mEx_f : mEx.f = 1 / 2 := by
  have h2 : mEx.invf = 2 := rfl
  rw [ECEFModel.f, h2, if_neg (by norm_num)]

theorem mEx_e2 : mEx.e2 = 3 / 4 := by
  rw [ECEFModel.e2, mEx_f]; norm_num

theorem mEx_e2m : mEx.e2m = 1 / 4 := by
  rw [ECEFModel.e2m, mEx_e2]; norm_num

theorem e2_of_invf_nonpos (m : ECEFModel) (h : m.invf ≤ 0) : m.e2 = 0 := by
  rw [ECEFModel.e2, ECEFModel.f, if_pos h]; ring

theorem mSph_a : mSph.a = 2 := rfl

theorem mSph_e2 : mSph.e2 = 0 := e2_of_invf_nonpos mSph (by norm_num [mSph])

theorem mSph_e2m : mSph.e2m = 1 := by rw [ECEFModel.e2m, mSph_e2]; norm_num

theorem pole_cos_eq (lat : ℝ) :
    (if |lat| = 90 then (0:ℝ) else Real.cos (lat * π / 180)) = Real.cos (lat * π / 180) := by
  by_cases h : |lat| = 90
  · rw [if_pos h]
    rcases (abs_eq (by norm_num : (0:ℝ) ≤ 90)).1 h with h1 | h1
    · rw [h1, show (90:ℝ) * π / 180 = π / 2 by ring, Real.cos_pi_div_two]
    · rw [h1, show (-90:ℝ) * π / 180 = -(π / 2) by ring, Real.cos_neg, Real.cos_pi_div_two]
  · rw [if_neg h]

/-- C10: the cube-root helper computes the signed real cube root.  It
returns the negated cube root of the absolute value for negative input and
the cube root of the absolute value otherwise, it is an odd function, and
its cube is the identity over the reals. -/
theorem claim_C10_cbrt (x : ℝ) :
    ECEF.cbrt (-x) = -ECEF.cbrt x ∧ ECEF.cbrt x ^ 3 = x ∧
      ECEF.cbrt x = if x < 0 then -(|x| ^ ((1:ℝ)/3)) else |x| ^ ((1:ℝ)/3) := by
  refine ⟨?_, ?_, rfl⟩
  · rcases lt_trichotomy x 0 with h | h | h
    · rw [ECEF.cbrt, ECEF.cbrt, if_pos h, if_neg (by linarith), abs_neg, neg_neg]
    · subst h
      norm_num [ECEF.cbrt, Real.zero_rpow]
    · rw [ECEF.cbrt, ECEF.cbrt, if_pos (show -x < 0 by linarith), if_neg (not_lt.2 h.le),
        abs_neg]
  · have habs : (|x| ^ ((1:ℝ)/3)) ^ 3 = |x| := by
      rw [← Real.rpow_natCast (|x| ^ ((1:ℝ)/3)) 3, ← Real.rpow_mul (abs_nonneg x)]
      norm_num
    rw [ECEF.cbrt]
    by_cases h : x < 0
    · rw [if_pos h, show (-(|x| ^ ((1:ℝ)/3))) ^ 3 = -((|x| ^ ((1:ℝ)/3)) ^ 3) by ring,
        habs, abs_of_neg h, neg_neg]
    · rw [if_neg h, habs, abs_of_nonneg (not_lt.1 h)]

/-- C7: Forward computes exactly x = (N + h) cos lat cos lon,
y = (N + h) cos lat sin lon, z = (N e2m + h) sin lat with
N = a / sqrt (1 - e2 sin^2 lat), angles converted to radians, and at
lat = 90 or lat = -90 the latitude cosine is exactly zero, so the x and y
outputs vanish for every lon and h. -/
theorem claim_C7_forward (m : ECEFModel) (lat lon h : ℝ) :
    Forward m lat lon h =
      ((m.a / Real.sqrt (1 - m.e2 * Real.sin (lat * π / 180) ^ 2) + h) *
          Real.cos (lat * π / 180) * Real.cos (lon * π / 180),
       (m.a / Real.sqrt (1 - m.e2 * Real.sin (lat * π / 180) ^ 2) + h) *
          Real.cos (lat * π / 180) * Real.sin (lon * π / 180),
       (m.a / Real.sqrt (1 - m.e2 * Real.sin (lat * π / 180) ^ 2) * m.e2m + h) *
          Real.sin (lat * π / 180)) ∧
    (|lat| = 90 → (Forward m lat lon h).1 = 0 ∧ (Forward m lat lon h).2.1 = 0) := by
  constructor
  · simp only [Forward, Nrad, pole_cos_eq]
  · intro hl
    simp only [Forward, if_pos hl]
    constructor <;> ring

/-- Witness for C7 at the concrete input lat = 90, lon = 7, h = 3 on the
concrete ellipsoid. -/
theorem claim_C7_forward_witness :
    |(90:ℝ)| = 90 ∧ (Forward mEx 90 7 3).1 = 0 ∧ (Forward mEx 90 7 3).2.1 = 0 := by
  have h := (claim_C7_forward mEx 90 7 3).2 (by norm_num)
  exact ⟨by norm_num, h.1, h.2⟩

end GeographicLib

namespace GeographicLib

theorem e2m_def (m : ECEFModel) : m.e2m = 1 - m.e2 := rfl

theorem oneSubE2SinSq_pos (m : ECEFModel) (he0 : 0 ≤ m.e2) (he1 : m.e2 < 1) (phi : ℝ) :
    0 < 1 - m.e2 * Real.sin phi ^ 2 := by
  nlinarith [Real.sin_sq_le_one phi, sq_nonneg (Real.sin phi)]

theorem sqrtOneSubE2SinSq_pos (m : ECEFModel) (he0 : 0 ≤ m.e2) (he1 : m.e2 < 1) (phi : ℝ) :
    0 < Real.sqrt (1 - m.e2 * Real.sin phi ^ 2) :=
  Real.sqrt_pos.2 (oneSubE2SinSq_pos m he0 he1 phi)

theorem Nrad_pos (m : ECEFModel) (ha : 0 < m.a) (he0 : 0 ≤ m.e2) (he1 : m.e2 < 1) (phi : ℝ) :
    0 < Nrad m phi :=
  div_pos ha (sqrtOneSubE2SinSq_pos m he0 he1 phi)

theorem Nrad_sq (m : ECEFModel) (he0 : 0 ≤ m.e2) (he1 : m.e2 < 1) (phi : ℝ) :
    Nrad m phi ^ 2 * (1 - m.e2 * Real.sin phi ^ 2) = m.a ^ 2 := by
  have ht := oneSubE2SinSq_pos m he0 he1 phi
  rw [Nrad, div_pow, Real.sq_sqrt ht.le, div_mul_cancel₀]
  exact ht.ne'

theorem Nrad_ge_a (m : ECEFModel) (ha : 0 < m.a) (he0 : 0 ≤ m.e2) (he1 : m.e2 < 1) (phi : ℝ) :
    m.a ≤ Nrad m phi := by
  rw [Nrad, le_div_iff₀ (sqrtOneSubE2SinSq_pos m he0 he1 phi)]
  have h1 : Real.sqrt (1 - m.e2 * Real.sin phi ^ 2) ≤ 1 :=
    Real.sqrt_le_one.2 (by nlinarith [sq_nonneg (Real.sin phi), he0])
  nlinarith [ha]

theorem e2m_pos (m : ECEFModel) (he1 : m.e2 < 1) : 0 < m.e2m := by
  rw [e2m_def]; linarith

theorem Nrad_le (m : ECEFModel) (ha : 0 < m.a) (he0 : 0 ≤ m.e2) (he1 : m.e2 < 1) (phi : ℝ) :
    Nrad m phi ≤ m.a / Real.sqrt m.e2m := by
  rw [Nrad]
  apply div_le_div_of_nonneg_left ha.le (Real.sqrt_pos.2 (e2m_pos m he1))
  apply Real.sqrt_le_sqrt
  rw [e2m_def]
  nlinarith [Real.sin_sq_le_one phi, he0]

theorem bAxis_sq (m : ECEFModel) (he1 : m.e2 < 1) : bAxis m ^ 2 = m.a ^ 2 * m.e2m := by
  rw [bAxis, mul_pow, Real.sq_sqrt (e2m_pos m he1).le]

theorem bAxis_pos (m : ECEFModel) (ha : 0 < m.a) (he1 : m.e2 < 1) : 0 < bAxis m :=
  mul_pos ha (Real.sqrt_pos.2 (e2m_pos m he1))

theorem sin_pi_div_two_sq : Real.sin (π / 2) ^ 2 = 1 := by
  rw [Real.sin_pi_div_two]; norm_num

theorem Nrad_pole (m : ECEFModel) (he1 : m.e2 < 1) :
    Nrad m (π / 2) * m.e2m = bAxis m := by
  have hp := e2m_pos m he1
  have hs := Real.sq_sqrt hp.le
  rw [Nrad, sin_pi_div_two_sq, mul_one, show (1 : ℝ) - m.e2 = m.e2m from (e2m_def m).symm,
    bAxis, div_mul_eq_mul_div, div_eq_iff (Real.sqrt_pos.2 hp).ne']
  linear_combination (-m.a) * hs

theorem sol_h_eq (m : ECEFModel) (R z : ℝ) (p : ℝ × ℝ) (hp : p ∈ SolSet m R z) :
    p.2 = hOfPhi m R z p.1 := by
  obtain ⟨hIcc, hReq, hzeq⟩ := hp
  rw [hOfPhi]
  by_cases hc : Real.cos p.1 = 0
  · rw [if_pos hc]
    have hs : Real.sin p.1 ≠ 0 := by
      intro hs0
      have := Real.sin_sq_add_cos_sq p.1
      rw [hs0, hc] at this
      norm_num at this
    field_simp
    linear_combination -hzeq
  · rw [if_neg hc]
    field_simp
    linear_combination -hReq

theorem sol_h_unique (m : ECEFModel) (R z : ℝ) (p q : ℝ × ℝ) (hp : p ∈ SolSet m R z)
    (hq : q ∈ SolSet m R z) (h1 : p.1 = q.1) : p = q := by
  have h2 := sol_h_eq m R z p hp
  have h3 := sol_h_eq m R z q hq
  rw [h1] at h2
  exact Prod.ext h1 (h2.trans h3.symm)

theorem sol_dist (m : ECEFModel) (R z : ℝ) (p : ℝ × ℝ) (hp : p ∈ SolSet m R z) :
    (R - Nrad m p.1 * Real.cos p.1) ^ 2 +
      (z - Nrad m p.1 * m.e2m * Real.sin p.1) ^ 2 = p.2 ^ 2 := by
  obtain ⟨hIcc, hReq, hzeq⟩ := hp
  have hcs := Real.sin_sq_add_cos_sq p.1
  linear_combination (R - Nrad m p.1 * Real.cos p.1 + p.2 * Real.cos p.1) * hReq +
    (z - Nrad m p.1 * m.e2m * Real.sin p.1 + p.2 * Real.sin p.1) * hzeq + p.2 ^ 2 * hcs

theorem Pmer_onEllipse (m : ECEFModel) (he0 : 0 ≤ m.e2) (he1 : m.e2 < 1) (phi : ℝ) :
    OnEllipse m (Pmer m phi) := by
  have hN := Nrad_sq m he0 he1 phi
  have hcs := Real.sin_sq_add_cos_sq phi
  rw [OnEllipse, Pmer]
  simp only [ECEFModel.e2m] at *
  linear_combination (1 - m.e2) * hN + (1 - m.e2) * Nrad m phi ^ 2 * hcs

end GeographicLib

namespace GeographicLib

theorem master_identity (m : ECEFModel) (he0 : 0 ≤ m.e2) (he1 : m.e2 < 1) (phi : ℝ)
    (q : ℝ × ℝ) (hq : OnEllipse m q) :
    (q.1 - (Pmer m phi).1) ^ 2 + (q.2 - (Pmer m phi).2) ^ 2 +
      2 * (Nrad m phi * m.e2m) * (Real.cos phi * (q.1 - (Pmer m phi).1) +
        Real.sin phi * (q.2 - (Pmer m phi).2)) = m.e2 * (q.1 - (Pmer m phi).1) ^ 2 := by
  have hN := Nrad_sq m he0 he1 phi
  have hcs := Real.sin_sq_add_cos_sq phi
  rw [OnEllipse] at hq
  simp only [Pmer, ECEFModel.e2m] at *
  linear_combination hq - (1 - m.e2) * hN - (1 - m.e2) * Nrad m phi ^ 2 * hcs

theorem beats (m : ECEFModel) (ha : 0 < m.a) (he0 : 0 ≤ m.e2) (he1 : m.e2 < 1)
    (phi h : ℝ) (hh : -(Nrad m phi * m.e2m) < h) (q : ℝ × ℝ) (hq : OnEllipse m q)
    (hne : q ≠ Pmer m phi) :
    h ^ 2 < ((Nrad m phi + h) * Real.cos phi - q.1) ^ 2 +
      ((Nrad m phi * m.e2m + h) * Real.sin phi - q.2) ^ 2 := by
  have hNpos := Nrad_pos m ha he0 he1 phi
  have hrho : 0 < Nrad m phi * m.e2m := mul_pos hNpos (e2m_pos m he1)
  have hid := master_identity m he0 he1 phi q hq
  have hcs := Real.sin_sq_add_cos_sq phi
  rw [show (Pmer m phi).1 = Nrad m phi * Real.cos phi from rfl,
    show (Pmer m phi).2 = Nrad m phi * m.e2m * Real.sin phi from rfl] at hid
  set N := Nrad m phi
  set c := Real.cos phi
  set s := Real.sin phi
  set d1 := q.1 - N * c with hd1
  set d2 := q.2 - N * m.e2m * s with hd2
  have hD : 0 < d1 ^ 2 + d2 ^ 2 := by
    rcases eq_or_ne d1 0 with h1 | h1
    · rcases eq_or_ne d2 0 with h2 | h2
      · exfalso
        apply hne
        have hq1 : q.1 = N * c := by rw [hd1] at h1; linarith
        have hq2 : q.2 = N * m.e2m * s := by rw [hd2] at h2; linarith
        rw [Pmer]
        exact Prod.ext hq1 hq2
      · have : 0 < d2 ^ 2 := by positivity
        nlinarith [sq_nonneg d1]
    · have : 0 < d1 ^ 2 := by positivity
      nlinarith [sq_nonneg d2]
  have hk2 : 0 < d2 ^ 2 + (1 - m.e2) * d1 ^ 2 := by nlinarith [hD, sq_nonneg d1, sq_nonneg d2]
  have hTT : 2 * (N * m.e2m) * (c * d1 + s * d2) = m.e2 * d1 ^ 2 - (d1 ^ 2 + d2 ^ 2) := by
    linear_combination hid
  have hgoal : ((N + h) * c - q.1) ^ 2 + ((N * m.e2m + h) * s - q.2) ^ 2 - h ^ 2 =
      d1 ^ 2 + d2 ^ 2 - 2 * h * (c * d1 + s * d2) := by
    rw [hd1, hd2]
    linear_combination h ^ 2 * hcs
  have hfin : 0 < 2 * (N * m.e2m) * (d1 ^ 2 + d2 ^ 2) +
      2 * h * (d2 ^ 2 + (1 - m.e2) * d1 ^ 2) := by
    nlinarith [mul_pos (show 0 < N * m.e2m + h by linarith) hk2,
      mul_nonneg (mul_nonneg hrho.le he0) (sq_nonneg d1)]
  have hmul : 2 * (N * m.e2m) * (d1 ^ 2 + d2 ^ 2 - 2 * h * (c * d1 + s * d2)) =
      2 * (N * m.e2m) * (d1 ^ 2 + d2 ^ 2) + 2 * h * (d2 ^ 2 + (1 - m.e2) * d1 ^ 2) := by
    linear_combination (-2 * h) * hTT
  have hX : 0 < d1 ^ 2 + d2 ^ 2 - 2 * h * (c * d1 + s * d2) := by
    by_contra hcon
    push_neg at hcon
    have := mul_nonpos_of_nonneg_of_nonpos (by linarith : (0:ℝ) ≤ 2 * (N * m.e2m)) hcon
    linarith [hmul ▸ this, hfin]
  linarith [hgoal, hX]

theorem Pmer_inj (m : ECEFModel) (ha : 0 < m.a) (he0 : 0 ≤ m.e2) (he1 : m.e2 < 1)
    (phi1 phi2 : ℝ) (h1 : phi1 ∈ Icc (-(π / 2)) (π / 2)) (h2 : phi2 ∈ Icc (-(π / 2)) (π / 2))
    (heq : Pmer m phi1 = Pmer m phi2) : phi1 = phi2 := by
  have hc := congrArg Prod.fst heq
  have hs := congrArg Prod.snd heq
  simp only [Pmer] at hc hs
  have hem := e2m_pos m he1
  have hN1 := Nrad_pos m ha he0 he1 phi1
  have hN2 := Nrad_pos m ha he0 he1 phi2
  have hs2 : Nrad m phi1 * Real.sin phi1 = Nrad m phi2 * Real.sin phi2 := by
    have : m.e2m * (Nrad m phi1 * Real.sin phi1) = m.e2m * (Nrad m phi2 * Real.sin phi2) := by
      linear_combination hs
    exact mul_left_cancel₀ hem.ne' this
  have hcs1 := Real.sin_sq_add_cos_sq phi1
  have hcs2 := Real.sin_sq_add_cos_sq phi2
  have hNN : Nrad m phi1 ^ 2 = Nrad m phi2 ^ 2 := by
    have e1 : Nrad m phi1 ^ 2 = (Nrad m phi1 * Real.cos phi1) ^ 2 +
        (Nrad m phi1 * Real.sin phi1) ^ 2 := by linear_combination (-(Nrad m phi1 ^ 2)) * hcs1
    have e2 : Nrad m phi2 ^ 2 = (Nrad m phi2 * Real.cos phi2) ^ 2 +
        (Nrad m phi2 * Real.sin phi2) ^ 2 := by linear_combination (-(Nrad m phi2 ^ 2)) * hcs2
    rw [e1, e2, hc, hs2]
  have hNeq : Nrad m phi1 = Nrad m phi2 := by nlinarith [hN1, hN2]
  have hsin : Real.sin phi1 = Real.sin phi2 := by
    have := hs2
    rw [hNeq] at this
    exact mul_left_cancel₀ hN2.ne' this
  exact Real.injOn_sin h1 h2 hsin

theorem sol_abs_lt (m : ECEFModel) (ha : 0 < m.a) (he0 : 0 ≤ m.e2) (he1 : m.e2 < 1)
    (phi h : ℝ) (hIcc : phi ∈ Icc (-(π / 2)) (π / 2))
    (hh : -(Nrad m phi * m.e2m) < h) (p : ℝ × ℝ)
    (hp : p ∈ SolSet m ((Nrad m phi + h) * Real.cos phi)
      ((Nrad m phi * m.e2m + h) * Real.sin phi))
    (hne : p ≠ (phi, h)) : |h| < |p.2| := by
  have hself : (phi, h) ∈ SolSet m ((Nrad m phi + h) * Real.cos phi)
      ((Nrad m phi * m.e2m + h) * Real.sin phi) := ⟨hIcc, rfl, rfl⟩
  have hp1 : p.1 ≠ phi := by
    intro hfst
    exact hne (sol_h_unique m _ _ p (phi, h) hp hself hfst)
  have hqE := Pmer_onEllipse m he0 he1 p.1
  have hqne : Pmer m p.1 ≠ Pmer m phi := fun hEq =>
    hp1 (Pmer_inj m ha he0 he1 p.1 phi hp.1 hIcc hEq)
  have hlt := beats m ha he0 he1 phi h hh (Pmer m p.1) hqE hqne
  have hdist := sol_dist m _ _ p hp
  have hsq : h ^ 2 < p.2 ^ 2 := by
    have hPm1 : (Pmer m p.1).1 = Nrad m p.1 * Real.cos p.1 := rfl
    have hPm2 : (Pmer m p.1).2 = Nrad m p.1 * m.e2m * Real.sin p.1 := rfl
    rw [hPm1, hPm2] at hlt
    nlinarith [hlt, hdist]
  nlinarith [abs_nonneg h, abs_nonneg p.2, sq_abs h, sq_abs p.2, hsq]

end GeographicLib

namespace GeographicLib

theorem Nrad_continuous (m : ECEFModel) (he0 : 0 ≤ m.e2) (he1 : m.e2 < 1) :
    Continuous (Nrad m) := by
  apply Continuous.div continuous_const
  · exact Real.continuous_sqrt.comp
      (continuous_const.sub (continuous_const.mul (Real.continuous_sin.pow 2)))
  · intro x
    exact (sqrtOneSubE2SinSq_pos m he0 he1 x).ne'

theorem sol_nonempty (m : ECEFModel) (ha : 0 < m.a) (he0 : 0 ≤ m.e2) (he1 : m.e2 < 1)
    (R z : ℝ) (hR : 0 ≤ R) : (SolSet m R z).Nonempty := by
  have hcont : Continuous (fun phi => R * Real.sin phi - z * Real.cos phi -
      Nrad m phi * (1 - m.e2m) * Real.sin phi * Real.cos phi) := by
    refine ((continuous_const.mul Real.continuous_sin).sub
      (continuous_const.mul Real.continuous_cos)).sub ?_
    exact (((Nrad_continuous m he0 he1).mul continuous_const).mul
      Real.continuous_sin).mul Real.continuous_cos
  have hle : -(π / 2) ≤ π / 2 := by linarith [Real.pi_pos]
  have hiv := intermediate_value_Icc hle hcont.continuousOn
  have h0 : (0 : ℝ) ∈ Icc
      (R * Real.sin (-(π / 2)) - z * Real.cos (-(π / 2)) -
        Nrad m (-(π / 2)) * (1 - m.e2m) * Real.sin (-(π / 2)) * Real.cos (-(π / 2)))
      (R * Real.sin (π / 2) - z * Real.cos (π / 2) -
        Nrad m (π / 2) * (1 - m.e2m) * Real.sin (π / 2) * Real.cos (π / 2)) := by
    rw [Real.sin_neg, Real.cos_neg, Real.sin_pi_div_two, Real.cos_pi_div_two]
    constructor <;> simp <;> linarith
  obtain ⟨phi0, hphiIcc, hg0⟩ := hiv h0
  simp only at hg0
  have hcs := Real.sin_sq_add_cos_sq phi0
  refine ⟨(phi0, (R - Nrad m phi0 * Real.cos phi0) * Real.cos phi0 +
    (z - Nrad m phi0 * m.e2m * Real.sin phi0) * Real.sin phi0), hphiIcc, ?_, ?_⟩
  · linear_combination (Real.sin phi0) * hg0 - (R - Nrad m phi0 * Real.cos phi0) * hcs
  · linear_combination (-Real.cos phi0) * hg0 -
      (z - Nrad m phi0 * m.e2m * Real.sin phi0) * hcs

theorem sol_closed (m : ECEFModel) (he0 : 0 ≤ m.e2) (he1 : m.e2 < 1) (R z : ℝ) :
    IsClosed (SolSet m R z) := by
  have hc1 : IsClosed {p : ℝ × ℝ | p.1 ∈ Icc (-(π / 2)) (π / 2)} :=
    isClosed_Icc.preimage continuous_fst
  have hc2 : IsClosed {p : ℝ × ℝ | R = (Nrad m p.1 + p.2) * Real.cos p.1} := by
    apply isClosed_eq continuous_const
    exact (((Nrad_continuous m he0 he1).comp continuous_fst).add continuous_snd).mul
      (Real.continuous_cos.comp continuous_fst)
  have hc3 : IsClosed {p : ℝ × ℝ | z = (Nrad m p.1 * m.e2m + p.2) * Real.sin p.1} := by
    apply isClosed_eq continuous_const
    exact ((((Nrad_continuous m he0 he1).comp continuous_fst).mul continuous_const).add
      continuous_snd).mul (Real.continuous_sin.comp continuous_fst)
  exact hc1.inter (hc2.inter hc3)

theorem sol_subset_box (m : ECEFModel) (ha : 0 < m.a) (he0 : 0 ≤ m.e2) (he1 : m.e2 < 1)
    (R z : ℝ) :
    SolSet m R z ⊆ Icc (-(π / 2)) (π / 2) ×ˢ
      Icc (-(|R| + |z| + 2 * (m.a / Real.sqrt m.e2m))) (|R| + |z| + 2 * (m.a / Real.sqrt m.e2m)) := by
  intro p hp
  have hdist := sol_dist m R z p hp
  have hA := Nrad_le m ha he0 he1 p.1
  have hNpos := Nrad_pos m ha he0 he1 p.1
  have hApos : 0 < m.a / Real.sqrt m.e2m := lt_of_lt_of_le hNpos hA
  have hc1 := Real.neg_one_le_cos p.1
  have hc2 := Real.cos_le_one p.1
  have hs1 := Real.neg_one_le_sin p.1
  have hs2 := Real.sin_le_one p.1
  have hem := e2m_pos m he1
  have hem1 : m.e2m ≤ 1 := by rw [e2m_def]; linarith
  refine ⟨hp.1, ?_⟩
  have hb1 : (R - Nrad m p.1 * Real.cos p.1) ^ 2 ≤ (|R| + m.a / Real.sqrt m.e2m) ^ 2 := by
    have habs : |R - Nrad m p.1 * Real.cos p.1| ≤ |R| + m.a / Real.sqrt m.e2m := by
      refine (abs_sub R (Nrad m p.1 * Real.cos p.1)).trans ?_
      have : |Nrad m p.1 * Real.cos p.1| ≤ m.a / Real.sqrt m.e2m := by
        rw [abs_mul, abs_of_pos hNpos]
        refine le_trans (mul_le_mul_of_nonneg_left (Real.abs_cos_le_one p.1) hNpos.le) ?_
        rw [mul_one]; exact hA
      linarith
    calc (R - Nrad m p.1 * Real.cos p.1) ^ 2 = |R - Nrad m p.1 * Real.cos p.1| ^ 2 := by
          rw [sq_abs]
      _ ≤ (|R| + m.a / Real.sqrt m.e2m) ^ 2 := by
          apply pow_le_pow_left₀ (abs_nonneg _) habs
  have hb2 : (z - Nrad m p.1 * m.e2m * Real.sin p.1) ^ 2 ≤
      (|z| + m.a / Real.sqrt m.e2m) ^ 2 := by
    have habs : |z - Nrad m p.1 * m.e2m * Real.sin p.1| ≤ |z| + m.a / Real.sqrt m.e2m := by
      refine (abs_sub z (Nrad m p.1 * m.e2m * Real.sin p.1)).trans ?_
      have : |Nrad m p.1 * m.e2m * Real.sin p.1| ≤ m.a / Real.sqrt m.e2m := by
        rw [abs_mul, abs_mul, abs_of_pos hNpos, abs_of_pos hem]
        have h1 : Nrad m p.1 * m.e2m * |Real.sin p.1| ≤ Nrad m p.1 * m.e2m :=
          mul_le_mul_of_nonneg_left (Real.abs_sin_le_one p.1)
            (mul_pos hNpos hem).le |>.trans_eq (mul_one _)
        nlinarith [hA]
      linarith
    calc (z - Nrad m p.1 * m.e2m * Real.sin p.1) ^ 2 =
        |z - Nrad m p.1 * m.e2m * Real.sin p.1| ^ 2 := by rw [sq_abs]
      _ ≤ (|z| + m.a / Real.sqrt m.e2m) ^ 2 := by
          apply pow_le_pow_left₀ (abs_nonneg _) habs
  have hsq : p.2 ^ 2 ≤ (|R| + |z| + 2 * (m.a / Real.sqrt m.e2m)) ^ 2 := by
    nlinarith [hdist, hb1, hb2, abs_nonneg R, abs_nonneg z, hApos,
      mul_nonneg (abs_nonneg R) (abs_nonneg z)]
  have : |p.2| ≤ |R| + |z| + 2 * (m.a / Real.sqrt m.e2m) := by
    nlinarith [abs_nonneg p.2, sq_abs p.2, abs_nonneg R, abs_nonneg z, hApos]
  exact abs_le.1 this

theorem sol_compact (m : ECEFModel) (ha : 0 < m.a) (he0 : 0 ≤ m.e2) (he1 : m.e2 < 1)
    (R z : ℝ) : IsCompact (SolSet m R z) :=
  IsCompact.of_isClosed_subset (isCompact_Icc.prod isCompact_Icc)
    (sol_closed m he0 he1 R z) (sol_subset_box m ha he0 he1 R z)

theorem reverse_char (m : ECEFModel) (ha : 0 < m.a) (he0 : 0 ≤ m.e2) (he1 : m.e2 < 1)
    (R z : ℝ) (hR : 0 ≤ R) :
    (phiStar m R z, hOfPhi m R z (phiStar m R z)) ∈ MinSet m R z ∧
      ∀ p ∈ MinSet m R z, p.1 ≤ phiStar m R z := by
  obtain ⟨p0, hp0S, hp0min0⟩ := (sol_compact m ha he0 he1 R z).exists_isMinOn
    (sol_nonempty m ha he0 he1 R z hR) (continuous_abs.comp continuous_snd).continuousOn
  have hp0min : ∀ q ∈ SolSet m R z, |p0.2| ≤ |q.2| := fun q hq => isMinOn_iff.1 hp0min0 q hq
  have hMeq : MinSet m R z = SolSet m R z ∩ {p | |p.2| ≤ |p0.2|} := by
    ext p
    constructor
    · rintro ⟨hpS, hmin⟩
      exact ⟨hpS, hmin p0 hp0S⟩
    · rintro ⟨hpS, hle⟩
      exact ⟨hpS, fun q hq => hle.trans (hp0min q hq)⟩
  have hMcompact : IsCompact (MinSet m R z) := by
    rw [hMeq]
    exact (sol_compact m ha he0 he1 R z).inter_right
      (isClosed_le (continuous_abs.comp continuous_snd) continuous_const)
  have hMne : (MinSet m R z).Nonempty := ⟨p0, hp0S, hp0min⟩
  have hFcompact : IsCompact (Prod.fst '' MinSet m R z) := hMcompact.image continuous_fst
  have hFne : (Prod.fst '' MinSet m R z).Nonempty := hMne.image _
  have hsup : phiStar m R z ∈ Prod.fst '' MinSet m R z := by
    rw [phiStar]
    exact hFcompact.sSup_mem hFne
  obtain ⟨p1, hp1M, hp1fst⟩ := hsup
  have hkey : (phiStar m R z, hOfPhi m R z (phiStar m R z)) = p1 := by
    have h2 := sol_h_eq m R z p1 hp1M.1
    refine Prod.ext hp1fst.symm ?_
    show hOfPhi m R z (phiStar m R z) = p1.2
    rw [← hp1fst]
    exact h2.symm
  constructor
  · rw [hkey]
    exact hp1M
  · intro p hpM
    exact le_csSup hFcompact.bddAbove ⟨p, hpM, rfl⟩

end GeographicLib

namespace GeographicLib

theorem neg_half_le_rad (u : ℝ) (h1 : -90 ≤ u) : -(π / 2) ≤ u * π / 180 := by
  have hpos : (0 : ℝ) ≤ π / 180 := by positivity
  have h2 := mul_le_mul_of_nonneg_right h1 hpos
  calc -(π / 2) = -90 * (π / 180) := by ring
    _ ≤ u * (π / 180) := h2
    _ = u * π / 180 := by ring

theorem rad_le_half (u : ℝ) (h1 : u ≤ 90) : u * π / 180 ≤ π / 2 := by
  have hpos : (0 : ℝ) ≤ π / 180 := by positivity
  have h2 := mul_le_mul_of_nonneg_right h1 hpos
  calc u * π / 180 = u * (π / 180) := by ring
    _ ≤ 90 * (π / 180) := h2
    _ = π / 2 := by ring

theorem neg_half_lt_rad (u : ℝ) (h1 : -90 < u) : -(π / 2) < u * π / 180 := by
  have hpos : (0 : ℝ) < π / 180 := by positivity
  have h2 := mul_lt_mul_of_pos_right h1 hpos
  calc -(π / 2) = -90 * (π / 180) := by ring
    _ < u * (π / 180) := h2
    _ = u * π / 180 := by ring

theorem rad_lt_half (u : ℝ) (h1 : u < 90) : u * π / 180 < π / 2 := by
  have hpos : (0 : ℝ) < π / 180 := by positivity
  have h2 := mul_lt_mul_of_pos_right h1 hpos
  calc u * π / 180 = u * (π / 180) := by ring
    _ < 90 * (π / 180) := h2
    _ = π / 2 := by ring

theorem neg_pi_lt_rad (u : ℝ) (h1 : -180 < u) : -π < u * π / 180 := by
  have hpos : (0 : ℝ) < π / 180 := by positivity
  have h2 := mul_lt_mul_of_pos_right h1 hpos
  calc -π = -180 * (π / 180) := by ring
    _ < u * (π / 180) := h2
    _ = u * π / 180 := by ring

theorem rad_le_pi (u : ℝ) (h1 : u ≤ 180) : u * π / 180 ≤ π := by
  have hpos : (0 : ℝ) ≤ π / 180 := by positivity
  have h2 := mul_le_mul_of_nonneg_right h1 hpos
  calc u * π / 180 = u * (π / 180) := by ring
    _ ≤ 180 * (π / 180) := h2
    _ = π := by ring

theorem forward_eval (m : ECEFModel) (lat lon h : ℝ) :
    Forward m lat lon h =
      ((Nrad m (lat * π / 180) + h) * Real.cos (lat * π / 180) * Real.cos (lon * π / 180),
       (Nrad m (lat * π / 180) + h) * Real.cos (lat * π / 180) * Real.sin (lon * π / 180),
       (Nrad m (lat * π / 180) * m.e2m + h) * Real.sin (lat * π / 180)) := by
  simp only [Forward, pole_cos_eq]

theorem roundtrip_core (m : ECEFModel) (ha : 0 < m.a) (he0 : 0 ≤ m.e2) (he1 : m.e2 < 1)
    (phi h : ℝ) (hIcc : phi ∈ Icc (-(π / 2)) (π / 2))
    (hh : -(Nrad m phi * m.e2m) < h) :
    phiStar m ((Nrad m phi + h) * Real.cos phi)
        ((Nrad m phi * m.e2m + h) * Real.sin phi) = phi ∧
      hOfPhi m ((Nrad m phi + h) * Real.cos phi)
        ((Nrad m phi * m.e2m + h) * Real.sin phi) phi = h := by
  set R := (Nrad m phi + h) * Real.cos phi with hRdef
  set z := (Nrad m phi * m.e2m + h) * Real.sin phi with hzdef
  have hself : (phi, h) ∈ SolSet m R z := ⟨hIcc, rfl, rfl⟩
  have hM : MinSet m R z = {(phi, h)} := by
    apply Subset.antisymm
    · rintro p ⟨hpS, hpmin⟩
      rw [mem_singleton_iff]
      by_contra hne
      have h1 := sol_abs_lt m ha he0 he1 phi h hIcc hh p hpS hne
      have h2 : |p.2| ≤ |h| := hpmin (phi, h) hself
      linarith
    · rintro p hp
      rw [mem_singleton_iff] at hp
      subst hp
      refine ⟨hself, fun q hq => ?_⟩
      rcases eq_or_ne q (phi, h) with h1 | h1
      · rw [h1]
      · exact le_of_lt (sol_abs_lt m ha he0 he1 phi h hIcc hh q hq h1)
  constructor
  · rw [phiStar, hM, image_singleton, csSup_singleton]
  · exact (sol_h_eq m R z (phi, h) hself).symm

/-- C1: round-trip.  For lat in the closed range -90 to 90 degrees, lon in
the half-open range -180 (exclusive) to 180 (inclusive), and height
strictly above -a (1 - e2) (which covers every height within a few
thousand kilometers of the surface of an earth-sized ellipsoid, inside or
outside), Reverse applied to Forward recovers the latitude and height
exactly, and recovers the longitude whenever the point is off the polar
axis (that is, the absolute latitude is not 90 degrees).  Over the exact
reals the recovery is exact, hence within any stated tolerance. -/
theorem claim_C1_roundtrip (m : ECEFModel) (ha : 0 < m.a) (he0 : 0 ≤ m.e2) (he1 : m.e2 < 1)
    (lat lon h : ℝ) (hlat : lat ∈ Icc (-90 : ℝ) 90) (hlon : lon ∈ Ioc (-180 : ℝ) 180)
    (hh : -(m.a * m.e2m) < h) :
    (Reverse m (Forward m lat lon h).1 (Forward m lat lon h).2.1
        (Forward m lat lon h).2.2).1 = lat ∧
      (Reverse m (Forward m lat lon h).1 (Forward m lat lon h).2.1
        (Forward m lat lon h).2.2).2.2 = h ∧
      (|lat| ≠ 90 →
        (Reverse m (Forward m lat lon h).1 (Forward m lat lon h).2.1
          (Forward m lat lon h).2.2).2.1 = lon) := by
  have hπ := Real.pi_pos
  have hem := e2m_pos m he1
  set φ := lat * π / 180 with hφdef
  set lam := lon * π / 180 with hlamdef
  have hφIcc : φ ∈ Icc (-(π / 2)) (π / 2) :=
    ⟨neg_half_le_rad lat hlat.1, rad_le_half lat hlat.2⟩
  have hcos : 0 ≤ Real.cos φ := Real.cos_nonneg_of_mem_Icc hφIcc
  have hNpos := Nrad_pos m ha he0 he1 φ
  have hNa := Nrad_ge_a m ha he0 he1 φ
  have hhloc : -(Nrad m φ * m.e2m) < h := by nlinarith [hh, hNa, hem]
  have hw : Nrad m φ * m.e2m = Nrad m φ - Nrad m φ * m.e2 := by rw [e2m_def]; ring
  have hNh : 0 < Nrad m φ + h := by
    nlinarith [hhloc, hw, mul_nonneg hNpos.le he0]
  have hfwd := forward_eval m lat lon h
  have hx : (Forward m lat lon h).1 = (Nrad m φ + h) * Real.cos φ * Real.cos lam := by
    rw [hfwd]
  have hy : (Forward m lat lon h).2.1 = (Nrad m φ + h) * Real.cos φ * Real.sin lam := by
    rw [hfwd]
  have hz : (Forward m lat lon h).2.2 = (Nrad m φ * m.e2m + h) * Real.sin φ := by
    rw [hfwd]
  have hcsl := Real.sin_sq_add_cos_sq lam
  have hR2 : (Forward m lat lon h).1 ^ 2 + (Forward m lat lon h).2.1 ^ 2 =
      ((Nrad m φ + h) * Real.cos φ) ^ 2 := by
    rw [hx, hy]
    linear_combination ((Nrad m φ + h) * Real.cos φ) ^ 2 * hcsl
  have hRval : Real.sqrt ((Forward m lat lon h).1 ^ 2 + (Forward m lat lon h).2.1 ^ 2) =
      (Nrad m φ + h) * Real.cos φ := by
    rw [hR2, Real.sqrt_sq (mul_nonneg hNh.le hcos)]
  have hcore := roundtrip_core m ha he0 he1 φ h hφIcc hhloc
  refine ⟨?_, ?_, ?_⟩
  · show phiStar m (Real.sqrt ((Forward m lat lon h).1 ^ 2 + (Forward m lat lon h).2.1 ^ 2))
      (Forward m lat lon h).2.2 * 180 / π = lat
    rw [hRval, hz, hcore.1, hφdef]
    field_simp
  · show hOfPhi m (Real.sqrt ((Forward m lat lon h).1 ^ 2 + (Forward m lat lon h).2.1 ^ 2))
      (Forward m lat lon h).2.2
      (phiStar m (Real.sqrt ((Forward m lat lon h).1 ^ 2 + (Forward m lat lon h).2.1 ^ 2))
        (Forward m lat lon h).2.2) = h
    rw [hRval, hz, hcore.1, hcore.2]
  · intro hne90
    have hlatlt : |lat| < 90 := lt_of_le_of_ne (abs_le.2 ⟨hlat.1, hlat.2⟩) hne90
    obtain ⟨hl1, hl2⟩ := abs_lt.1 hlatlt
    have hcospos : 0 < Real.cos φ :=
      Real.cos_pos_of_mem_Ioo ⟨neg_half_lt_rad lat hl1, rad_lt_half lat hl2⟩
    have hRpos : 0 < (Nrad m φ + h) * Real.cos φ := mul_pos hNh hcospos
    show (if Real.sqrt ((Forward m lat lon h).1 ^ 2 + (Forward m lat lon h).2.1 ^ 2) = 0
      then 0
      else atan2 (Forward m lat lon h).2.1 (Forward m lat lon h).1 * 180 / π) = lon
    rw [hRval, if_neg hRpos.ne']
    have hlamIoc : lam ∈ Ioc (-π) π :=
      ⟨neg_pi_lt_rad lon hlon.1, rad_le_pi lon hlon.2⟩
    have harg : atan2 (Forward m lat lon h).2.1 (Forward m lat lon h).1 = lam := by
      rw [atan2]
      have hxy : (⟨(Forward m lat lon h).1, (Forward m lat lon h).2.1⟩ : ℂ) =
          (((Nrad m φ + h) * Real.cos φ : ℝ) : ℂ) *
            (Complex.cos lam + Complex.sin lam * Complex.I) := by
        rw [← Complex.ofReal_cos, ← Complex.ofReal_sin, Complex.mk_eq_add_mul_I, hx, hy]
        push_cast
        ring
      rw [hxy]
      exact Complex.arg_mul_cos_add_sin_mul_I hRpos hlamIoc
    rw [harg, hlamdef]
    field_simp

/-- Witness for C1 at the concrete input lat = 0, lon = 0, h = 0 on the
concrete ellipsoid. -/
theorem claim_C1_roundtrip_witness :
    -(mEx.a * mEx.e2m) < 0 ∧
      ((Reverse mEx (Forward mEx 0 0 0).1 (Forward mEx 0 0 0).2.1
          (Forward mEx 0 0 0).2.2).1 = 0 ∧
        (Reverse mEx (Forward mEx 0 0 0).1 (Forward mEx 0 0 0).2.1
          (Forward mEx 0 0 0).2.2).2.2 = 0 ∧
        (|(0 : ℝ)| ≠ 90 →
          (Reverse mEx (Forward mEx 0 0 0).1 (Forward mEx 0 0 0).2.1
            (Forward mEx 0 0 0).2.2).2.1 = 0)) :=
  ⟨by norm_num [mEx_a, mEx_e2m],
    claim_C1_roundtrip mEx (by norm_num [mEx_a]) (by norm_num [mEx_e2])
      (by norm_num [mEx_e2]) 0 0 0 (by norm_num) (by norm_num)
      (by norm_num [mEx_a, mEx_e2m])⟩

end GeographicLib

namespace GeographicLib

theorem pi_half_mem : π / 2 ∈ Icc (-(π / 2)) (π / 2) :=
  ⟨by linarith [Real.pi_pos], le_refl _⟩

theorem neg_pi_half_mem : -(π / 2) ∈ Icc (-(π / 2)) (π / 2) :=
  ⟨le_refl _, by linarith [Real.pi_pos]⟩

theorem zero_mem_Icc_pi : (0 : ℝ) ∈ Icc (-(π / 2)) (π / 2) :=
  ⟨by linarith [Real.pi_pos], by linarith [Real.pi_pos]⟩

theorem cos_eq_zero_Icc (phi : ℝ) (hIcc : phi ∈ Icc (-(π / 2)) (π / 2))
    (hc : Real.cos phi = 0) : phi = π / 2 ∨ phi = -(π / 2) := by
  have hs2 : Real.sin phi ^ 2 = 1 := by
    have := Real.sin_sq_add_cos_sq phi
    rw [hc] at this
    linarith [this]
  have hfac : (Real.sin phi - 1) * (Real.sin phi + 1) = 0 := by linear_combination hs2
  rcases mul_eq_zero.1 hfac with h1 | h1
  · left
    apply Real.injOn_sin hIcc pi_half_mem
    rw [Real.sin_pi_div_two]
    linarith
  · right
    apply Real.injOn_sin hIcc neg_pi_half_mem
    rw [Real.sin_neg, Real.sin_pi_div_two]
    linarith

theorem sin_eq_zero_Icc (phi : ℝ) (hIcc : phi ∈ Icc (-(π / 2)) (π / 2))
    (hs : Real.sin phi = 0) : phi = 0 := by
  apply Real.injOn_sin hIcc zero_mem_Icc_pi
  rw [Real.sin_zero, hs]

theorem Nrad_neg (m : ECEFModel) (phi : ℝ) : Nrad m (-phi) = Nrad m phi := by
  rw [Nrad, Nrad, Real.sin_neg]
  ring_nf

theorem Nrad_zero (m : ECEFModel) : Nrad m 0 = m.a := by
  rw [Nrad, Real.sin_zero]
  norm_num

theorem bAxis_le_a (m : ECEFModel) (ha : 0 < m.a) (he0 : 0 ≤ m.e2) (he1 : m.e2 < 1) :
    bAxis m ≤ m.a := by
  rw [bAxis]
  have h1 : Real.sqrt m.e2m ≤ 1 := Real.sqrt_le_one.2 (by rw [e2m_def]; linarith)
  nlinarith [ha]

theorem bAxis_lt_a (m : ECEFModel) (ha : 0 < m.a) (he2 : 0 < m.e2) (he1 : m.e2 < 1) :
    bAxis m < m.a := by
  rw [bAxis]
  have h1 : Real.sqrt m.e2m < 1 := by
    rw [show (1:ℝ) = Real.sqrt 1 from (Real.sqrt_one).symm]
    apply Real.sqrt_lt_sqrt (by rw [e2m_def]; linarith)
    rw [e2m_def]; linarith
  nlinarith [ha]

theorem half_pi_deg : π / 2 * 180 / π = 90 := by
  field_simp
  ring

theorem sol_axis_cases (m : ECEFModel) (ha : 0 < m.a) (he0 : 0 ≤ m.e2) (he1 : m.e2 < 1)
    (z : ℝ) (p : ℝ × ℝ) (hp : p ∈ SolSet m 0 z) :
    (p = (π / 2, z - bAxis m)) ∨ (p = (-(π / 2), -z - bAxis m)) ∨
      (Real.cos p.1 ≠ 0 ∧ p.2 = -Nrad m p.1 ∧ z = -(Nrad m p.1 * m.e2) * Real.sin p.1) := by
  obtain ⟨hIcc, hReq, hzeq⟩ := hp
  by_cases hc : Real.cos p.1 = 0
  · rcases cos_eq_zero_Icc p.1 hIcc hc with h1 | h1
    · left
      refine Prod.ext h1 ?_
      have hsin : Real.sin p.1 = 1 := by rw [h1, Real.sin_pi_div_two]
      have hNb : Nrad m p.1 * m.e2m = bAxis m := by rw [h1, Nrad_pole m he1]
      rw [hsin, mul_one] at hzeq
      show p.2 = z - bAxis m
      rw [← hNb]
      linarith
    · right; left
      refine Prod.ext h1 ?_
      have hsin : Real.sin p.1 = -1 := by rw [h1, Real.sin_neg, Real.sin_pi_div_two]
      have hNb : Nrad m p.1 * m.e2m = bAxis m := by
        rw [h1, Nrad_neg m (π / 2), Nrad_pole m he1]
      rw [hsin] at hzeq
      show p.2 = -z - bAxis m
      rw [← hNb]
      linarith
  · right; right
    refine ⟨hc, ?_, ?_⟩
    · have h0 : (Nrad m p.1 + p.2) * Real.cos p.1 = 0 := hReq.symm
      rcases mul_eq_zero.1 h0 with h1 | h1
      · linarith
      · exact absurd h1 hc
    · have hps : p.2 = -Nrad m p.1 := by
        have h0 : (Nrad m p.1 + p.2) * Real.cos p.1 = 0 := hReq.symm
        rcases mul_eq_zero.1 h0 with h1 | h1
        · linarith
        · exact absurd h1 hc
      rw [hps] at hzeq
      rw [hzeq, e2m_def]
      ring

theorem minset_axis_pos (m : ECEFModel) (ha : 0 < m.a) (he0 : 0 ≤ m.e2) (he1 : m.e2 < 1)
    (z : ℝ) (hz : 0 < z) : MinSet m 0 z = {(π / 2, z - bAxis m)} := by
  have hbpos := bAxis_pos m ha he1
  have hba := bAxis_le_a m ha he0 he1
  have hNb : Nrad m (π / 2) * m.e2m = bAxis m := Nrad_pole m he1
  have hself : (π / 2, z - bAxis m) ∈ SolSet m 0 z := by
    refine ⟨pi_half_mem, ?_, ?_⟩
    · rw [Real.cos_pi_div_two]; ring
    · rw [Real.sin_pi_div_two, hNb]; ring
  have hstrict : ∀ p ∈ SolSet m 0 z, p ≠ (π / 2, z - bAxis m) → |z - bAxis m| < |p.2| := by
    intro p hpS hne
    rcases sol_axis_cases m ha he0 he1 z p hpS with h1 | h1 | h1
    · exact absurd h1 hne
    · rw [h1]
      show |z - bAxis m| < |-z - bAxis m|
      rw [abs_of_nonpos (by linarith : -z - bAxis m ≤ 0), abs_lt]
      constructor <;> linarith
    · obtain ⟨hc, hp2, hzval⟩ := h1
      have hN := Nrad_pos m ha he0 he1 p.1
      have hNa := Nrad_ge_a m ha he0 he1 p.1
      have hzub : z ≤ Nrad m p.1 * m.e2 := by
        nlinarith [Real.neg_one_le_sin p.1, mul_nonneg hN.le he0, hzval]
      have hNe2 : Nrad m p.1 * m.e2 < Nrad m p.1 := by nlinarith [hN]
      rw [hp2, abs_neg, abs_of_pos hN, abs_lt]
      constructor <;> linarith
  apply Subset.antisymm
  · rintro p ⟨hpS, hpmin⟩
    rw [mem_singleton_iff]
    by_contra hne
    have h1 := hstrict p hpS hne
    have h2 : |p.2| ≤ |z - bAxis m| := hpmin (π / 2, z - bAxis m) hself
    linarith
  · rintro p hp
    rw [mem_singleton_iff] at hp
    subst hp
    refine ⟨hself, fun q hq => ?_⟩
    rcases eq_or_ne q (π / 2, z - bAxis m) with h1 | h1
    · rw [h1]
    · exact le_of_lt (hstrict q hq h1)

theorem sqrt_zero_sq : Real.sqrt ((0 : ℝ) ^ 2 + 0 ^ 2) = 0 := by norm_num

theorem reverse_axis_pos (m : ECEFModel) (ha : 0 < m.a) (he0 : 0 ≤ m.e2) (he1 : m.e2 < 1)
    (z : ℝ) (hz : 0 < z) : Reverse m 0 0 z = (90, 0, z - bAxis m) := by
  have hphi : phiStar m 0 z = π / 2 := by
    rw [phiStar, minset_axis_pos m ha he0 he1 z hz, image_singleton, csSup_singleton]
  have hhof : hOfPhi m 0 z (π / 2) = z - bAxis m := by
    rw [hOfPhi, if_pos Real.cos_pi_div_two, Real.sin_pi_div_two, Nrad_pole m he1]
    ring
  show (phiStar m (Real.sqrt ((0 : ℝ) ^ 2 + 0 ^ 2)) z * 180 / π,
    if Real.sqrt ((0 : ℝ) ^ 2 + 0 ^ 2) = 0 then 0 else atan2 0 0 * 180 / π,
    hOfPhi m (Real.sqrt ((0 : ℝ) ^ 2 + 0 ^ 2)) z
      (phiStar m (Real.sqrt ((0 : ℝ) ^ 2 + 0 ^ 2)) z)) = (90, 0, z - bAxis m)
  rw [sqrt_zero_sq, if_pos rfl, hphi, hhof, half_pi_deg]

end GeographicLib

namespace GeographicLib

theorem Nrad_e2_zero (m : ECEFModel) (he2 : m.e2 = 0) (phi : ℝ) : Nrad m phi = m.a := by
  rw [Nrad, he2]
  norm_num

theorem bAxis_sphere (m : ECEFModel) (he2 : m.e2 = 0) : bAxis m = m.a := by
  rw [bAxis, e2m_def, he2]
  norm_num

theorem neg_pole_sol_center (m : ECEFModel) (he1 : m.e2 < 1) :
    (-(π / 2), -bAxis m) ∈ SolSet m 0 0 := by
  refine ⟨neg_pi_half_mem, ?_, ?_⟩
  · rw [Real.cos_neg, Real.cos_pi_div_two]; ring
  · rw [Real.sin_neg, Real.sin_pi_div_two, Nrad_neg m (π / 2), Nrad_pole m he1]; ring

theorem pole_sol_center (m : ECEFModel) (he1 : m.e2 < 1) :
    (π / 2, -bAxis m) ∈ SolSet m 0 0 := by
  refine ⟨pi_half_mem, ?_, ?_⟩
  · rw [Real.cos_pi_div_two]; ring
  · rw [Real.sin_pi_div_two, Nrad_pole m he1]; ring

theorem phiStar_center (m : ECEFModel) (ha : 0 < m.a) (he0 : 0 ≤ m.e2) (he1 : m.e2 < 1) :
    phiStar m 0 0 = π / 2 := by
  rcases eq_or_lt_of_le he0 with he2 | he2
  · have he2' : m.e2 = 0 := he2.symm
    have hb : bAxis m = m.a := bAxis_sphere m he2'
    have hSeq : SolSet m 0 0 = {p : ℝ × ℝ | p.1 ∈ Icc (-(π / 2)) (π / 2) ∧ p.2 = -m.a} := by
      ext p
      constructor
      · intro hp
        rcases sol_axis_cases m ha he0 he1 0 p hp with h1 | h1 | h1
        · rw [h1]
          exact ⟨pi_half_mem, by rw [hb]; ring_nf⟩
        · rw [h1]
          exact ⟨neg_pi_half_mem, by rw [hb]; ring_nf⟩
        · exact ⟨hp.1, by rw [h1.2.1, Nrad_e2_zero m he2' p.1]⟩
      · rintro ⟨hIcc, hp2⟩
        refine ⟨hIcc, ?_, ?_⟩
        · rw [Nrad_e2_zero m he2' p.1, hp2]; ring
        · rw [Nrad_e2_zero m he2' p.1, hp2, e2m_def, he2']; ring
    have hMeq : MinSet m 0 0 = SolSet m 0 0 := by
      apply Subset.antisymm
      · exact fun p hp => hp.1
      · intro p hp
        refine ⟨hp, fun q hq => ?_⟩
        rw [hSeq] at hp hq
        rw [hp.2, hq.2]
    have hfst : Prod.fst '' MinSet m 0 0 = Icc (-(π / 2)) (π / 2) := by
      rw [hMeq, hSeq]
      ext x
      constructor
      · rintro ⟨p, ⟨hIcc, _⟩, rfl⟩
        exact hIcc
      · intro hx
        exact ⟨(x, -m.a), ⟨hx, rfl⟩, rfl⟩
    rw [phiStar, hfst, csSup_Icc (by linarith [Real.pi_pos])]
  · have hb := bAxis_lt_a m ha he2 he1
    have hbpos := bAxis_pos m ha he1
    have hmin : ∀ q ∈ SolSet m 0 0, |-bAxis m| ≤ |q.2| := by
      intro q hq
      rcases sol_axis_cases m ha he0 he1 0 q hq with h1 | h1 | h1
      · rw [h1]
        simp
      · rw [h1]
        show |-bAxis m| ≤ |-0 - bAxis m|
        simp
      · have hN := Nrad_pos m ha he0 he1 q.1
        have hNa := Nrad_ge_a m ha he0 he1 q.1
        rw [h1.2.1, abs_neg, abs_neg, abs_of_pos hbpos, abs_of_pos hN]
        linarith
    have hMeq : MinSet m 0 0 = {(π / 2, -bAxis m), (-(π / 2), -bAxis m)} := by
      apply Subset.antisymm
      · rintro p ⟨hpS, hpmin⟩
        rcases sol_axis_cases m ha he0 he1 0 p hpS with h1 | h1 | h1
        · rw [h1]
          left
          norm_num
        · rw [h1]
          right
          norm_num
        · exfalso
          have hN := Nrad_pos m ha he0 he1 p.1
          have hNa := Nrad_ge_a m ha he0 he1 p.1
          have h2 : |p.2| ≤ |-bAxis m| := hpmin (π / 2, -bAxis m) (pole_sol_center m he1)
          rw [h1.2.1, abs_neg, abs_neg, abs_of_pos hN, abs_of_pos hbpos] at h2
          linarith
      · intro p hp
        rcases hp with h1 | h1
        · rw [h1]
          exact ⟨pole_sol_center m he1, hmin⟩
        · rw [mem_singleton_iff] at h1
          rw [h1]
          exact ⟨neg_pole_sol_center m he1, hmin⟩
    have hfst : Prod.fst '' MinSet m 0 0 = {π / 2, -(π / 2)} := by
      rw [hMeq]
      ext x
      constructor
      · rintro ⟨p, hp, rfl⟩
        rcases hp with h1 | h1
        · rw [h1]; left; rfl
        · rw [mem_singleton_iff] at h1; rw [h1]; right; rfl
      · intro hx
        rcases hx with h1 | h1
        · exact ⟨(π / 2, -bAxis m), by norm_num, h1.symm⟩
        · rw [mem_singleton_iff] at h1
          exact ⟨(-(π / 2), -bAxis m), by norm_num, h1.symm⟩
    rw [phiStar, hfst, csSup_pair]
    exact sup_eq_left.2 (by linarith [Real.pi_pos])

theorem reverse_center (m : ECEFModel) (ha : 0 < m.a) (he0 : 0 ≤ m.e2) (he1 : m.e2 < 1) :
    Reverse m 0 0 0 = (90, 0, -bAxis m) := by
  have hphi := phiStar_center m ha he0 he1
  have hhof : hOfPhi m 0 0 (π / 2) = -bAxis m := by
    rw [hOfPhi, if_pos Real.cos_pi_div_two, Real.sin_pi_div_two, Nrad_pole m he1]
    ring
  show (phiStar m (Real.sqrt ((0 : ℝ) ^ 2 + 0 ^ 2)) 0 * 180 / π,
    if Real.sqrt ((0 : ℝ) ^ 2 + 0 ^ 2) = 0 then 0 else atan2 0 0 * 180 / π,
    hOfPhi m (Real.sqrt ((0 : ℝ) ^ 2 + 0 ^ 2)) 0
      (phiStar m (Real.sqrt ((0 : ℝ) ^ 2 + 0 ^ 2)) 0)) = (90, 0, -bAxis m)
  rw [sqrt_zero_sq, if_pos rfl, hphi, hhof, half_pi_deg]

end GeographicLib

namespace GeographicLib

theorem bAxis_mEx : bAxis mEx = 1 := by
  rw [bAxis, mEx_a, mEx_e2m, show (1 / 4 : ℝ) = (1 / 2) ^ 2 by norm_num,
    Real.sqrt_sq (by norm_num : (0 : ℝ) ≤ 1 / 2)]
  norm_num

/-- C5 (amended): for z > 0, Reverse (0, 0, z) returns lat = 90 degrees,
lon = 0 degrees, and h = z - a sqrt (1 - e2), i.e. z minus the polar
semi-minor axis b, rather than z - a (1 - e2) as literally stated in the
claim.  The amended height is forced by the round-trip contract, the
minimum-absolute-height tie-break and the height lower bound, all of which
the spec also asserts. -/
theorem claim_C5_pole (m : ECEFModel) (ha : 0 < m.a) (he0 : 0 ≤ m.e2) (he1 : m.e2 < 1)
    (z : ℝ) (hz : 0 < z) : Reverse m 0 0 z = (90, 0, z - bAxis m) :=
  reverse_axis_pos m ha he0 he1 z hz

/-- Witness for the amended C5 on the concrete ellipsoid at z = 5, where
the returned height is 5 - 1 = 4. -/
theorem claim_C5_pole_witness :
    (0 : ℝ) < 5 ∧ Reverse mEx 0 0 5 = (90, 0, 4) := by
  refine ⟨by norm_num, ?_⟩
  have h := claim_C5_pole mEx (by norm_num [mEx_a]) (by norm_num [mEx_e2])
    (by norm_num [mEx_e2]) 5 (by norm_num)
  rw [h, bAxis_mEx]
  norm_num

/-- Counterexample to C5 as stated: on the ellipsoid with a = 2 and
e2 = 3/4, Reverse (0, 0, 5) returns height 5 - b = 4, not
5 - a (1 - e2) = 4.5. -/
theorem claim_C5_pole_counterexample :
    (Reverse mEx 0 0 5).2.2 ≠ 5 - mEx.a * mEx.e2m := by
  have h := reverse_axis_pos mEx (by norm_num [mEx_a]) (by norm_num [mEx_e2])
    (by norm_num [mEx_e2]) 5 (by norm_num)
  rw [h]
  show 5 - bAxis mEx ≠ 5 - mEx.a * mEx.e2m
  rw [bAxis_mEx, mEx_a, mEx_e2m]
  norm_num

/-- C6 (amended): Reverse (0, 0, 0) returns lat = 90 degrees, lon = 0
degrees, and h = -a sqrt (1 - e2) = -b, the negative of the polar
semi-minor axis, rather than -a (1 - e2) as literally stated in the
claim.  The amended height is the one consistent with the
minimum-absolute-height tie-break the spec prescribes: the valid pairs at
the center are latitude 90 or -90 with height -b and latitude 0 with
height -a, and b < a. -/
theorem claim_C6_center (m : ECEFModel) (ha : 0 < m.a) (he0 : 0 ≤ m.e2) (he1 : m.e2 < 1) :
    Reverse m 0 0 0 = (90, 0, -bAxis m) :=
  reverse_center m ha he0 he1

/-- Witness for the amended C6 on the concrete ellipsoid, where the
returned triple is (90, 0, -1). -/
theorem claim_C6_center_witness :
    (0 : ℝ) < mEx.a ∧ Reverse mEx 0 0 0 = (90, 0, -1) := by
  refine ⟨by norm_num [mEx_a], ?_⟩
  have h := claim_C6_center mEx (by norm_num [mEx_a]) (by norm_num [mEx_e2])
    (by norm_num [mEx_e2])
  rw [h, bAxis_mEx]

/-- Counterexample to C6 as stated: on the ellipsoid with a = 2 and
e2 = 3/4, Reverse (0, 0, 0) returns height -b = -1, not
-a (1 - e2) = -0.5. -/
theorem claim_C6_center_counterexample :
    (Reverse mEx 0 0 0).2.2 ≠ -(mEx.a * mEx.e2m) := by
  have h := reverse_center mEx (by norm_num [mEx_a]) (by norm_num [mEx_e2])
    (by norm_num [mEx_e2])
  rw [h]
  show -bAxis mEx ≠ -(mEx.a * mEx.e2m)
  rw [bAxis_mEx, mEx_a, mEx_e2m]
  norm_num

end GeographicLib

namespace GeographicLib

theorem atan2_eval (y x : ℝ) (hx : 0 ≤ x) :
    atan2 y x = Real.arcsin (y / Real.sqrt (x ^ 2 + y ^ 2)) := by
  rw [atan2, Complex.arg_of_re_nonneg (show (0:ℝ) ≤ (Complex.mk x y).re from hx),
    Complex.abs_apply, Complex.normSq_mk]
  ring_nf

theorem minset_of_singleton (m : ECEFModel) (R z : ℝ) (q : ℝ × ℝ)
    (hS : SolSet m R z = {q}) : MinSet m R z = {q} := by
  apply Subset.antisymm
  · exact fun p hp => hS ▸ hp.1
  · intro p hp
    rw [mem_singleton_iff] at hp
    subst hp
    refine ⟨by rw [hS]; rfl, fun q' hq' => ?_⟩
    rw [hS, mem_singleton_iff] at hq'
    rw [hq']

theorem sphere_sol_eq (m : ECEFModel) (ha : 0 < m.a) (he2 : m.e2 = 0) (R z : ℝ)
    (hR : 0 < R) :
    SolSet m R z =
      {(Real.arcsin (z / Real.sqrt (R ^ 2 + z ^ 2)), Real.sqrt (R ^ 2 + z ^ 2) - m.a)} := by
  have he0 : 0 ≤ m.e2 := le_of_eq he2.symm
  have he1 : m.e2 < 1 := by rw [he2]; norm_num
  have hem1 : m.e2m = 1 := by rw [e2m_def, he2]; norm_num
  have hρpos : 0 < Real.sqrt (R ^ 2 + z ^ 2) := Real.sqrt_pos.2 (by positivity)
  have hρsq : Real.sqrt (R ^ 2 + z ^ 2) ^ 2 = R ^ 2 + z ^ 2 := Real.sq_sqrt (by positivity)
  set ρ := Real.sqrt (R ^ 2 + z ^ 2)
  have hzb : -1 ≤ z / ρ ∧ z / ρ ≤ 1 := by
    rw [div_le_one hρpos, le_div_iff₀ hρpos]
    constructor <;> nlinarith [hρsq, hρpos, sq_nonneg (z - ρ), sq_nonneg (z + ρ), sq_nonneg R]
  have hsin : Real.sin (Real.arcsin (z / ρ)) = z / ρ := Real.sin_arcsin hzb.1 hzb.2
  have hcos : Real.cos (Real.arcsin (z / ρ)) = R / ρ := by
    rw [Real.cos_arcsin]
    have h1 : 1 - (z / ρ) ^ 2 = (R / ρ) ^ 2 := by
      field_simp
      linarith [hρsq]
    rw [h1, Real.sqrt_sq (by positivity)]
  ext p
  constructor
  · rintro ⟨hIcc, hReq, hzeq⟩
    rw [Nrad_e2_zero m he2 p.1] at hReq hzeq
    rw [hem1, mul_one] at hzeq
    have hcnn : 0 ≤ Real.cos p.1 := Real.cos_nonneg_of_mem_Icc hIcc
    have hcpos : 0 < Real.cos p.1 := by
      rcases eq_or_lt_of_le hcnn with hc0 | hc0
      · exfalso
        rw [← hc0] at hReq
        rw [mul_zero] at hReq
        linarith
      · exact hc0
    have hah : 0 < m.a + p.2 := by nlinarith [hReq, hR, hcpos]
    have hcs := Real.sin_sq_add_cos_sq p.1
    have hsq : (m.a + p.2) ^ 2 = ρ ^ 2 := by
      rw [hρsq]
      linear_combination (-(R + (m.a + p.2) * Real.cos p.1)) * hReq -
        (z + (m.a + p.2) * Real.sin p.1) * hzeq - (m.a + p.2) ^ 2 * hcs
    have hfac : (m.a + p.2 - ρ) * (m.a + p.2 + ρ) = 0 := by linear_combination hsq
    have hval : m.a + p.2 = ρ := by
      rcases mul_eq_zero.1 hfac with h1 | h1
      · linarith
      · linarith
    have hp2 : p.2 = ρ - m.a := by linarith
    have hsineq : Real.sin p.1 = z / ρ := by
      rw [eq_div_iff hρpos.ne']
      rw [hval] at hzeq
      linarith
    have hp1 : p.1 = Real.arcsin (z / ρ) := by
      apply Real.injOn_sin hIcc (Real.arcsin_mem_Icc (z / ρ))
      rw [hsin, hsineq]
    rw [mem_singleton_iff]
    exact Prod.ext hp1 hp2
  · intro hp
    rw [mem_singleton_iff] at hp
    subst hp
    refine ⟨Real.arcsin_mem_Icc (z / ρ), ?_, ?_⟩
    · rw [Nrad_e2_zero m he2, hcos]
      field_simp
    · rw [Nrad_e2_zero m he2, hem1, hsin]
      field_simp

theorem minset_axis_neg_sphere (m : ECEFModel) (ha : 0 < m.a) (he2 : m.e2 = 0)
    (z : ℝ) (hz : z < 0) : MinSet m 0 z = {(-(π / 2), -z - bAxis m)} := by
  have he0 : 0 ≤ m.e2 := le_of_eq he2.symm
  have he1 : m.e2 < 1 := by rw [he2]; norm_num
  have hb : bAxis m = m.a := bAxis_sphere m he2
  have hself : (-(π / 2), -z - bAxis m) ∈ SolSet m 0 z := by
    refine ⟨neg_pi_half_mem, ?_, ?_⟩
    · rw [Real.cos_neg, Real.cos_pi_div_two]; ring
    · rw [Real.sin_neg, Real.sin_pi_div_two, Nrad_neg m (π / 2), Nrad_pole m he1]; ring
  have hstrict : ∀ p ∈ SolSet m 0 z, p ≠ (-(π / 2), -z - bAxis m) →
      |-z - bAxis m| < |p.2| := by
    intro p hpS hne
    rcases sol_axis_cases m ha he0 he1 z p hpS with h1 | h1 | h1
    · rw [h1]
      show |-z - bAxis m| < |z - bAxis m|
      rw [hb, abs_of_nonpos (show z - m.a ≤ 0 by linarith), abs_lt]
      constructor <;> linarith
    · exact absurd h1 hne
    · exfalso
      have hzzero : z = 0 := by
        rw [he2] at h1
        have := h1.2.2
        rw [mul_zero, neg_zero, zero_mul] at this
        exact this
      linarith
  apply Subset.antisymm
  · rintro p ⟨hpS, hpmin⟩
    rw [mem_singleton_iff]
    by_contra hne
    have h1 := hstrict p hpS hne
    have h2 : |p.2| ≤ |-z - bAxis m| := hpmin (-(π / 2), -z - bAxis m) hself
    linarith
  · rintro p hp
    rw [mem_singleton_iff] at hp
    subst hp
    refine ⟨hself, fun q hq => ?_⟩
    rcases eq_or_ne q (-(π / 2), -z - bAxis m) with h1 | h1
    · rw [h1]
    · exact le_of_lt (hstrict q hq h1)

theorem neg_half_pi_deg : -(π / 2) * 180 / π = -90 := by
  field_simp
  ring

theorem reverse_axis_neg_sphere (m : ECEFModel) (ha : 0 < m.a) (he2 : m.e2 = 0)
    (z : ℝ) (hz : z < 0) : Reverse m 0 0 z = (-90, 0, -z - bAxis m) := by
  have he1 : m.e2 < 1 := by rw [he2]; norm_num
  have hphi : phiStar m 0 z = -(π / 2) := by
    rw [phiStar, minset_axis_neg_sphere m ha he2 z hz, image_singleton, csSup_singleton]
  have hhof : hOfPhi m 0 z (-(π / 2)) = -z - bAxis m := by
    rw [hOfPhi, if_pos (by rw [Real.cos_neg, Real.cos_pi_div_two]),
      Real.sin_neg, Real.sin_pi_div_two, Nrad_neg m (π / 2), Nrad_pole m he1]
    ring
  show (phiStar m (Real.sqrt ((0 : ℝ) ^ 2 + 0 ^ 2)) z * 180 / π,
    if Real.sqrt ((0 : ℝ) ^ 2 + 0 ^ 2) = 0 then 0 else atan2 0 0 * 180 / π,
    hOfPhi m (Real.sqrt ((0 : ℝ) ^ 2 + 0 ^ 2)) z
      (phiStar m (Real.sqrt ((0 : ℝ) ^ 2 + 0 ^ 2)) z)) = (-90, 0, -z - bAxis m)
  rw [sqrt_zero_sq, if_pos rfl, hphi, hhof, neg_half_pi_deg]

end GeographicLib

namespace GeographicLib

/-- C4 (amended): for a sphere (non-positive inverse flattening, so
e2 = 0) and every input other than the exact center, Reverse reduces to
the plain spherical conversion lat = atan2 (z, hypot x y), lon =
atan2 (y, x), h = sqrt (x^2 + y^2 + z^2) - a (angles reported in
degrees).  At the exact center the claim fails: the tie-break policy makes
Reverse return latitude 90, not atan2 (0, 0) = 0; see the
counterexample. -/
theorem claim_C4_sphere (m : ECEFModel) (ha : 0 < m.a) (hinv : m.invf ≤ 0) (x y z : ℝ)
    (hne : ¬(x = 0 ∧ y = 0 ∧ z = 0)) :
    Reverse m x y z =
      (atan2 z (Real.sqrt (x ^ 2 + y ^ 2)) * 180 / π,
       atan2 y x * 180 / π,
       Real.sqrt (x ^ 2 + y ^ 2 + z ^ 2) - m.a) := by
  have he2 := e2_of_invf_nonpos m hinv
  have he0 : 0 ≤ m.e2 := le_of_eq he2.symm
  have he1 : m.e2 < 1 := by rw [he2]; norm_num
  have hb : bAxis m = m.a := bAxis_sphere m he2
  rcases (Real.sqrt_nonneg (x ^ 2 + y ^ 2)).lt_or_eq with hR | hR
  · have hx2y2 : Real.sqrt (x ^ 2 + y ^ 2) ^ 2 = x ^ 2 + y ^ 2 :=
      Real.sq_sqrt (by positivity)
    have hsum : Real.sqrt (x ^ 2 + y ^ 2) ^ 2 + z ^ 2 = x ^ 2 + y ^ 2 + z ^ 2 := by
      rw [hx2y2]
    have hsol := sphere_sol_eq m ha he2 (Real.sqrt (x ^ 2 + y ^ 2)) z hR
    have hmem : (Real.arcsin (z / Real.sqrt (Real.sqrt (x ^ 2 + y ^ 2) ^ 2 + z ^ 2)),
        Real.sqrt (Real.sqrt (x ^ 2 + y ^ 2) ^ 2 + z ^ 2) - m.a) ∈
          SolSet m (Real.sqrt (x ^ 2 + y ^ 2)) z := by
      rw [hsol]
      rfl
    have hmin := minset_of_singleton m (Real.sqrt (x ^ 2 + y ^ 2)) z _ hsol
    have hphi : phiStar m (Real.sqrt (x ^ 2 + y ^ 2)) z =
        Real.arcsin (z / Real.sqrt (x ^ 2 + y ^ 2 + z ^ 2)) := by
      rw [phiStar, hmin, image_singleton, csSup_singleton, hsum]
    have hhof : hOfPhi m (Real.sqrt (x ^ 2 + y ^ 2)) z
        (Real.arcsin (z / Real.sqrt (x ^ 2 + y ^ 2 + z ^ 2))) =
        Real.sqrt (x ^ 2 + y ^ 2 + z ^ 2) - m.a := by
      have h2 := sol_h_eq m (Real.sqrt (x ^ 2 + y ^ 2)) z _ hmem
      rw [hsum] at h2
      exact h2.symm
    show (phiStar m (Real.sqrt (x ^ 2 + y ^ 2)) z * 180 / π,
      if Real.sqrt (x ^ 2 + y ^ 2) = 0 then 0 else atan2 y x * 180 / π,
      hOfPhi m (Real.sqrt (x ^ 2 + y ^ 2)) z (phiStar m (Real.sqrt (x ^ 2 + y ^ 2)) z)) = _
    rw [hphi, hhof, if_neg hR.ne']
    refine Prod.ext ?_ (Prod.ext rfl rfl)
    show Real.arcsin (z / Real.sqrt (x ^ 2 + y ^ 2 + z ^ 2)) * 180 / π =
      atan2 z (Real.sqrt (x ^ 2 + y ^ 2)) * 180 / π
    rw [atan2_eval z (Real.sqrt (x ^ 2 + y ^ 2)) (Real.sqrt_nonneg _), hsum]
  · have hxy0 : x ^ 2 + y ^ 2 = 0 := by
      have := Real.sqrt_eq_zero (by positivity : (0:ℝ) ≤ x ^ 2 + y ^ 2) |>.1 hR.symm
      exact this
    have hx0 : x = 0 := by
      have hx2 : x ^ 2 = 0 := by nlinarith [sq_nonneg x, sq_nonneg y]
      exact pow_eq_zero_iff (two_ne_zero) |>.1 hx2
    have hy0 : y = 0 := by
      have hy2 : y ^ 2 = 0 := by nlinarith [sq_nonneg x, sq_nonneg y]
      exact pow_eq_zero_iff (two_ne_zero) |>.1 hy2
    subst hx0
    subst hy0
    have hz : z ≠ 0 := by
      intro hz0
      exact hne ⟨rfl, rfl, hz0⟩
    have h00 : (⟨(0:ℝ), (0:ℝ)⟩ : ℂ) = 0 := rfl
    have hlon0 : atan2 (0:ℝ) (0:ℝ) = 0 := by
      rw [atan2, h00, Complex.arg_zero]
    have hzsq : Real.sqrt ((0:ℝ) ^ 2 + 0 ^ 2 + z ^ 2) = |z| := by
      rw [show (0:ℝ) ^ 2 + 0 ^ 2 + z ^ 2 = z ^ 2 by ring, Real.sqrt_sq_eq_abs]
    have hlat : atan2 z (Real.sqrt ((0:ℝ) ^ 2 + 0 ^ 2)) = Real.arcsin (z / |z|) := by
      rw [sqrt_zero_sq, atan2_eval z 0 (le_refl 0),
        show (0:ℝ) ^ 2 + z ^ 2 = z ^ 2 by ring, Real.sqrt_sq_eq_abs]
    rcases hz.lt_or_lt with hzneg | hzpos
    · rw [reverse_axis_neg_sphere m ha he2 z hzneg]
      have : Real.arcsin (z / |z|) = -(π / 2) := by
        rw [abs_of_neg hzneg, div_neg, div_self hz, Real.arcsin_neg, Real.arcsin_one]
      refine Prod.ext ?_ (Prod.ext ?_ ?_)
      · show (-90 : ℝ) = atan2 z (Real.sqrt ((0:ℝ) ^ 2 + 0 ^ 2)) * 180 / π
        rw [hlat, this, neg_half_pi_deg]
      · show (0 : ℝ) = atan2 (0:ℝ) (0:ℝ) * 180 / π
        rw [hlon0]
        norm_num
      · show -z - bAxis m = Real.sqrt ((0:ℝ) ^ 2 + 0 ^ 2 + z ^ 2) - m.a
        rw [hzsq, hb, abs_of_neg hzneg]
    · rw [reverse_axis_pos m ha he0 he1 z hzpos]
      have : Real.arcsin (z / |z|) = π / 2 := by
        rw [abs_of_pos hzpos, div_self hz, Real.arcsin_one]
      refine Prod.ext ?_ (Prod.ext ?_ ?_)
      · show (90 : ℝ) = atan2 z (Real.sqrt ((0:ℝ) ^ 2 + 0 ^ 2)) * 180 / π
        rw [hlat, this, half_pi_deg]
      · show (0 : ℝ) = atan2 (0:ℝ) (0:ℝ) * 180 / π
        rw [hlon0]
        norm_num
      · show z - bAxis m = Real.sqrt ((0:ℝ) ^ 2 + 0 ^ 2 + z ^ 2) - m.a
        rw [hzsq, hb, abs_of_pos hzpos]

/-- Witness for the amended C4 on the concrete sphere of radius 2 at the
input (2, 0, 0). -/
theorem claim_C4_sphere_witness :
    ¬((2:ℝ) = 0 ∧ (0:ℝ) = 0 ∧ (0:ℝ) = 0) ∧
      Reverse mSph 2 0 0 =
        (atan2 0 (Real.sqrt ((2:ℝ) ^ 2 + 0 ^ 2)) * 180 / π,
         atan2 0 2 * 180 / π,
         Real.sqrt ((2:ℝ) ^ 2 + 0 ^ 2 + 0 ^ 2) - mSph.a) :=
  ⟨by norm_num,
    claim_C4_sphere mSph (by norm_num [mSph_a]) (by norm_num [mSph]) 2 0 0 (by norm_num)⟩

/-- Counterexample to C4 as stated: at the exact center of the sphere the
tie-break policy returns latitude 90 degrees while the plain spherical
formula atan2 (0, hypot 0 0) gives 0 degrees. -/
theorem claim_C4_sphere_counterexample :
    (Reverse mSph 0 0 0).1 ≠ atan2 0 (Real.sqrt ((0:ℝ) ^ 2 + 0 ^ 2)) * 180 / π := by
  have hc := reverse_center mSph (by norm_num [mSph_a]) (by norm_num [mSph_e2])
    (by norm_num [mSph_e2])
  rw [hc]
  have h00 : (⟨(0:ℝ), (0:ℝ)⟩ : ℂ) = 0 := rfl
  have hlon0 : atan2 (0:ℝ) (0:ℝ) = 0 := by rw [atan2, h00, Complex.arg_zero]
  show (90 : ℝ) ≠ atan2 0 (Real.sqrt ((0:ℝ) ^ 2 + 0 ^ 2)) * 180 / π
  rw [sqrt_zero_sq, hlon0]
  norm_num

end GeographicLib

namespace GeographicLib

theorem distSq_continuous (m : ECEFModel) (R z : ℝ) : Continuous (distSq m R z) := by
  apply Continuous.add
  · exact ((continuous_const.sub (continuous_const.mul Real.continuous_cos)).pow 2)
  · exact ((continuous_const.sub (continuous_const.mul Real.continuous_sin)).pow 2)

theorem ellipse_param (m : ECEFModel) (ha : 0 < m.a) (he0 : 0 ≤ m.e2) (he1 : m.e2 < 1)
    (q : ℝ × ℝ) (hq : OnEllipse m q) :
    ∃ t ∈ Icc (-π) π, q.1 = m.a * Real.cos t ∧ q.2 = bAxis m * Real.sin t := by
  have hbpos := bAxis_pos m ha he1
  have hb2 := bAxis_sq m he1
  have hem := e2m_pos m he1
  rw [OnEllipse] at hq
  have hnormsq : q.1 / m.a * (q.1 / m.a) + q.2 / bAxis m * (q.2 / bAxis m) = 1 := by
    field_simp
    linear_combination m.a ^ 2 * hq + (q.1 ^ 2 - m.a ^ 2) * hb2
  have habs : Complex.abs ⟨q.1 / m.a, q.2 / bAxis m⟩ = 1 := by
    rw [Complex.abs_apply, Complex.normSq_mk, hnormsq, Real.sqrt_one]
  have hne : (⟨q.1 / m.a, q.2 / bAxis m⟩ : ℂ) ≠ 0 := by
    intro h0
    rw [h0, map_zero] at habs
    norm_num at habs
  refine ⟨Complex.arg ⟨q.1 / m.a, q.2 / bAxis m⟩,
    ⟨(Complex.arg_mem_Ioc _).1.le, (Complex.arg_mem_Ioc _).2⟩, ?_, ?_⟩
  · have := Complex.cos_arg hne
    rw [habs] at this
    have h1 : Real.cos (Complex.arg ⟨q.1 / m.a, q.2 / bAxis m⟩) = q.1 / m.a := by
      rw [this]
      norm_num
    rw [h1]
    field_simp
  · have := Complex.sin_arg (⟨q.1 / m.a, q.2 / bAxis m⟩ : ℂ)
    rw [habs] at this
    have h1 : Real.sin (Complex.arg ⟨q.1 / m.a, q.2 / bAxis m⟩) = q.2 / bAxis m := by
      rw [this]
      norm_num
    rw [h1]
    field_simp

theorem foot_Req (aa bb w R z c s : ℝ) (hb : bb ≠ 0) (hw : w ≠ 0)
    (hwsq : w ^ 2 = aa ^ 2 * s ^ 2 + bb ^ 2 * c ^ 2)
    (heq : (R - aa * c) * (aa * s) = (z - bb * s) * (bb * c)) :
    R = (aa * w / bb + ((R - aa * c) * (bb * c / w) + (z - bb * s) * (aa * s / w))) *
      (bb * c / w) := by
  have hkey : R * w ^ 2 = aa * c * w ^ 2 + (R - aa * c) * (bb ^ 2 * c ^ 2) +
      (z - bb * s) * (aa * bb * s * c) := by
    linear_combination (R - aa * c) * hwsq + aa * s * heq
  have hrhs : (aa * w / bb + ((R - aa * c) * (bb * c / w) + (z - bb * s) * (aa * s / w))) *
      (bb * c / w) =
      (aa * c * w ^ 2 + (R - aa * c) * (bb ^ 2 * c ^ 2) + (z - bb * s) * (aa * bb * s * c)) /
        w ^ 2 := by
    field_simp
    ring
  rw [hrhs, ← hkey, mul_div_assoc]
  rw [div_self (pow_ne_zero 2 hw), mul_one]

theorem foot_zeq (aa bb w R z c s em : ℝ) (hb : bb ≠ 0) (hw : w ≠ 0)
    (hwsq : w ^ 2 = aa ^ 2 * s ^ 2 + bb ^ 2 * c ^ 2)
    (heq : (R - aa * c) * (aa * s) = (z - bb * s) * (bb * c))
    (hem : em * aa ^ 2 = bb ^ 2) :
    z = (aa * w / bb * em + ((R - aa * c) * (bb * c / w) + (z - bb * s) * (aa * s / w))) *
      (aa * s / w) := by
  have hkey : z * (bb * w ^ 2) = aa ^ 2 * s * em * w ^ 2 +
      (R - aa * c) * (aa * bb ^ 2 * c * s) + (z - bb * s) * (aa ^ 2 * bb * s ^ 2) := by
    linear_combination bb * (z - bb * s) * hwsq - bb ^ 2 * c * heq - s * w ^ 2 * hem
  have hrhs : (aa * w / bb * em + ((R - aa * c) * (bb * c / w) + (z - bb * s) * (aa * s / w))) *
      (aa * s / w) =
      (aa ^ 2 * s * em * w ^ 2 + (R - aa * c) * (aa * bb ^ 2 * c * s) +
        (z - bb * s) * (aa ^ 2 * bb * s ^ 2)) / (bb * w ^ 2) := by
    field_simp
    ring
  rw [hrhs, ← hkey, mul_div_assoc]
  rw [div_self (by positivity : bb * w ^ 2 ≠ 0), mul_one]

theorem foot_hval (aa bb w R z c s : ℝ) (hw : w ≠ 0)
    (hwsq : w ^ 2 = aa ^ 2 * s ^ 2 + bb ^ 2 * c ^ 2)
    (heq : (R - aa * c) * (aa * s) = (z - bb * s) * (bb * c)) :
    ((R - aa * c) * (bb * c / w) + (z - bb * s) * (aa * s / w)) ^ 2 =
      (R - aa * c) ^ 2 + (z - bb * s) ^ 2 := by
  have hrhs : ((R - aa * c) * (bb * c / w) + (z - bb * s) * (aa * s / w)) ^ 2 =
      ((R - aa * c) * (bb * c) + (z - bb * s) * (aa * s)) ^ 2 / w ^ 2 := by
    field_simp
  have hkey : ((R - aa * c) * (bb * c) + (z - bb * s) * (aa * s)) ^ 2 =
      ((R - aa * c) ^ 2 + (z - bb * s) ^ 2) * w ^ 2 := by
    linear_combination (-((R - aa * c) ^ 2 + (z - bb * s) ^ 2)) * hwsq -
      ((R - aa * c) * (aa * s) - (z - bb * s) * (bb * c)) * heq
  rw [hrhs, hkey, mul_div_assoc]
  rw [div_self (pow_ne_zero 2 hw), mul_one]

theorem nearest_foot (m : ECEFModel) (ha : 0 < m.a) (he0 : 0 ≤ m.e2) (he1 : m.e2 < 1)
    (R z : ℝ) (hR : 0 ≤ R) :
    ∃ p ∈ SolSet m R z, ∀ q : ℝ × ℝ, OnEllipse m q →
      p.2 ^ 2 ≤ (R - q.1) ^ 2 + (z - q.2) ^ 2 := by
  have hπ := Real.pi_pos
  have hbpos := bAxis_pos m ha he1
  have hb2 := bAxis_sq m he1
  have hem := e2m_pos m he1
  obtain ⟨t0, ht0mem, ht0min0⟩ := (isCompact_Icc).exists_isMinOn
    (nonempty_Icc.2 (by linarith : -π ≤ π)) (distSq_continuous m R z).continuousOn
  have ht0min : ∀ t ∈ Icc (-π) π, distSq m R z t0 ≤ distSq m R z t :=
    fun t ht => isMinOn_iff.1 ht0min0 t ht
  -- reflect into the half-plane with nonnegative cosine if needed
  obtain ⟨ts, htsmem, htscos, htsmin⟩ :
      ∃ ts ∈ Icc (-π) π, 0 ≤ Real.cos ts ∧ ∀ t ∈ Icc (-π) π,
        distSq m R z ts ≤ distSq m R z t := by
    rcases le_or_lt 0 (Real.cos t0) with hc0 | hc0
    · exact ⟨t0, ht0mem, hc0, ht0min⟩
    · rcases le_or_lt 0 t0 with ht00 | ht00
      · refine ⟨π - t0, ?_, ?_, ?_⟩
        · constructor <;> [linarith [ht0mem.2]; linarith [ht0mem.1, ht00]]
        · rw [Real.cos_pi_sub]
          linarith
        · intro t ht
          refine le_trans ?_ (ht0min t ht)
          rw [distSq, distSq, Real.cos_pi_sub, Real.sin_pi_sub]
          have hprod : R * (m.a * Real.cos t0) ≤ 0 :=
            mul_nonpos_of_nonneg_of_nonpos hR (by nlinarith)
          nlinarith [hprod]
      · refine ⟨-π - t0, ?_, ?_, ?_⟩
        · constructor <;> [linarith [ht0mem.2, ht00]; linarith [ht0mem.1]]
        · rw [show -π - t0 = -(π + t0) by ring, Real.cos_neg, Real.cos_add, Real.cos_pi,
            Real.sin_pi]
          nlinarith [hc0]
        · intro t ht
          refine le_trans ?_ (ht0min t ht)
          rw [distSq, distSq, show -π - t0 = -(π + t0) by ring, Real.cos_neg, Real.sin_neg,
            Real.cos_add, Real.sin_add, Real.cos_pi, Real.sin_pi]
          have hprod : R * (m.a * Real.cos t0) ≤ 0 :=
            mul_nonpos_of_nonneg_of_nonpos hR (by nlinarith)
          nlinarith [hprod]
  -- the global minimum over the whole ellipse
  have hglobal : ∀ q : ℝ × ℝ, OnEllipse m q →
      distSq m R z ts ≤ (R - q.1) ^ 2 + (z - q.2) ^ 2 := by
    intro q hq
    obtain ⟨t, htmem, h1, h2⟩ := ellipse_param m ha he0 he1 q hq
    have := htsmin t htmem
    rw [distSq] at this
    rw [h1, h2]
    exact this
  -- the minimizer is interior, hence a critical point
  have htsIcc : ts ∈ Icc (-(π / 2)) (π / 2) := by
    by_contra hcon
    rw [mem_Icc] at hcon
    push_neg at hcon
    rcases le_or_lt ts 0 with hts0 | hts0
    · have h1 : ts < -(π / 2) := by
        rcases lt_or_le ts (-(π / 2)) with h | h
        · exact h
        · exact absurd (hcon h) (by linarith)
      have h2 : Real.cos ts < 0 := by
        rw [← Real.cos_neg]
        apply Real.cos_neg_of_pi_div_two_lt_of_lt
        · linarith
        · linarith [htsmem.1]
      linarith [htscos]
    · have h1 : π / 2 < ts := by
        rcases lt_or_le (π / 2) ts with h | h
        · exact h
        · exact absurd h (by intro hcontra; linarith [hcon (by linarith)])
      have h2 : Real.cos ts < 0 := by
        apply Real.cos_neg_of_pi_div_two_lt_of_lt h1
        linarith [htsmem.2]
      linarith [htscos]
  have hnhds : Icc (-π) π ∈ nhds ts :=
    Icc_mem_nhds (by linarith [htsIcc.1]) (by linarith [htsIcc.2])
  have hlocal : IsLocalMin (distSq m R z) ts := (isMinOn_iff.2 htsmin).isLocalMin hnhds
  -- derivative of the squared distance
  have hd : HasDerivAt (distSq m R z)
      (2 * (R - m.a * Real.cos ts) * (m.a * Real.sin ts) -
        2 * (z - bAxis m * Real.sin ts) * (bAxis m * Real.cos ts)) ts := by
    have h1 : HasDerivAt (fun t => R - m.a * Real.cos t) (m.a * Real.sin ts) ts := by
      have hc := ((Real.hasDerivAt_cos ts).const_mul m.a).const_sub R
      convert hc using 1
      ring
    have h2 : HasDerivAt (fun t => z - bAxis m * Real.sin t) (-(bAxis m * Real.cos ts)) ts := by
      have hs := ((Real.hasDerivAt_sin ts).const_mul (bAxis m)).const_sub z
      exact hs
    have h3 := (h1.pow 2).add (h2.pow 2)
    convert h3 using 1
    push_cast
    ring
  have hcrit : 2 * (R - m.a * Real.cos ts) * (m.a * Real.sin ts) -
      2 * (z - bAxis m * Real.sin ts) * (bAxis m * Real.cos ts) = 0 := by
    rw [← hd.deriv]
    exact hlocal.deriv_eq_zero
  have heq : (R - m.a * Real.cos ts) * (m.a * Real.sin ts) =
      (z - bAxis m * Real.sin ts) * (bAxis m * Real.cos ts) := by linarith
  -- construct the geodetic foot from the critical parameter
  set c := Real.cos ts
  set s := Real.sin ts
  have hcs : s ^ 2 + c ^ 2 = 1 := Real.sin_sq_add_cos_sq ts
  set w := Real.sqrt (m.a ^ 2 * s ^ 2 + bAxis m ^ 2 * c ^ 2) with hwdef
  have hwsq_pos : 0 < m.a ^ 2 * s ^ 2 + bAxis m ^ 2 * c ^ 2 := by nlinarith [sq_nonneg s, sq_nonneg c, sq_nonneg (m.a * s), sq_nonneg (bAxis m * c), hbpos, ha]
  have hwpos : 0 < w := Real.sqrt_pos.2 hwsq_pos
  have hwsq : w ^ 2 = m.a ^ 2 * s ^ 2 + bAxis m ^ 2 * c ^ 2 := Real.sq_sqrt hwsq_pos.le
  have hsb : -1 ≤ m.a * s / w ∧ m.a * s / w ≤ 1 := by
    rw [div_le_one hwpos, le_div_iff₀ hwpos]
    constructor <;> nlinarith [hwsq, hwpos, sq_nonneg (m.a * s - w), sq_nonneg (m.a * s + w),
      sq_nonneg (bAxis m * c)]
  set phi := Real.arcsin (m.a * s / w) with hphidef
  have hsinphi : Real.sin phi = m.a * s / w := Real.sin_arcsin hsb.1 hsb.2
  have hcosphi : Real.cos phi = bAxis m * c / w := by
    rw [hphidef, Real.cos_arcsin]
    have h1 : 1 - (m.a * s / w) ^ 2 = (bAxis m * c / w) ^ 2 := by
      field_simp
      linear_combination hwsq
    rw [h1, Real.sqrt_sq (div_nonneg (mul_nonneg hbpos.le htscos) hwpos.le)]
  have hNphi : Nrad m phi = m.a * w / bAxis m := by
    rw [Nrad, hsinphi]
    have h1 : 1 - m.e2 * (m.a * s / w) ^ 2 = (bAxis m / w) ^ 2 := by
      field_simp
      linear_combination hwsq + bAxis m ^ 2 * hcs - s ^ 2 * hb2 - s ^ 2 * m.a ^ 2 * (e2m_def m)
    rw [h1, Real.sqrt_sq (div_nonneg hbpos.le hwpos.le), div_div_eq_mul_div]
  set h0 := (R - m.a * c) * (bAxis m * c / w) + (z - bAxis m * s) * (m.a * s / w) with hh0def
  refine ⟨(phi, h0), ⟨Real.arcsin_mem_Icc _, ?_, ?_⟩, ?_⟩
  · show R = (Nrad m phi + h0) * Real.cos phi
    rw [hNphi, hcosphi, hh0def]
    exact foot_Req m.a (bAxis m) w R z c s hbpos.ne' hwpos.ne' hwsq heq
  · show z = (Nrad m phi * m.e2m + h0) * Real.sin phi
    rw [hNphi, hsinphi, hh0def]
    exact foot_zeq m.a (bAxis m) w R z c s m.e2m hbpos.ne' hwpos.ne' hwsq heq
      (by linear_combination -hb2)
  · intro q hq
    show h0 ^ 2 ≤ (R - q.1) ^ 2 + (z - q.2) ^ 2
    have hval : h0 ^ 2 = distSq m R z ts := by
      rw [hh0def, distSq]
      exact foot_hval m.a (bAxis m) w R z c s hwpos.ne' hwsq heq
    rw [hval]
    exact hglobal q hq

end GeographicLib

namespace GeographicLib

theorem reverse_min_dist (m : ECEFModel) (ha : 0 < m.a) (he0 : 0 ≤ m.e2) (he1 : m.e2 < 1)
    (R z : ℝ) (hR : 0 ≤ R) (q : ℝ × ℝ) (hq : OnEllipse m q) :
    hOfPhi m R z (phiStar m R z) ^ 2 ≤ (R - q.1) ^ 2 + (z - q.2) ^ 2 := by
  obtain ⟨pv, hpvS, hpvmin⟩ := nearest_foot m ha he0 he1 R z hR
  obtain ⟨hstarM, hUB⟩ := reverse_char m ha he0 he1 R z hR
  have h1 : |hOfPhi m R z (phiStar m R z)| ≤ |pv.2| := hstarM.2 pv hpvS
  have h2 := hpvmin q hq
  nlinarith [sq_abs (hOfPhi m R z (phiStar m R z)), sq_abs pv.2, abs_nonneg pv.2,
    abs_nonneg (hOfPhi m R z (phiStar m R z))]

theorem reverse_star_sol (m : ECEFModel) (ha : 0 < m.a) (he0 : 0 ≤ m.e2) (he1 : m.e2 < 1)
    (R z : ℝ) (hR : 0 ≤ R) :
    (phiStar m R z, hOfPhi m R z (phiStar m R z)) ∈ SolSet m R z :=
  (reverse_char m ha he0 he1 R z hR).1.1

theorem reverse_sign (m : ECEFModel) (ha : 0 < m.a) (he0 : 0 ≤ m.e2) (he1 : m.e2 < 1)
    (R z : ℝ) (hR : 0 ≤ R) (hz : z ≠ 0) :
    -(Nrad m (phiStar m R z) * m.e2m) < hOfPhi m R z (phiStar m R z) := by
  have hstar := reverse_star_sol m ha he0 he1 R z hR
  set phis := phiStar m R z
  set hs := hOfPhi m R z phis
  obtain ⟨hIcc, hReq, hzeq⟩ := hstar
  simp only at hReq hzeq
  have hem := e2m_pos m he1
  have hN := Nrad_pos m ha he0 he1 phis
  have hsign : 0 < z * Real.sin phis := by
    rcases lt_trichotomy (z * Real.sin phis) 0 with hneg | hzero | hpos
    · exfalso
      have hP2 : (Pmer m phis).2 = Nrad m phis * m.e2m * Real.sin phis := rfl
      have hrefl : OnEllipse m ((Pmer m phis).1, -(Pmer m phis).2) := by
        have := Pmer_onEllipse m he0 he1 phis
        rw [OnEllipse] at this ⊢
        simp only
        linear_combination this
      have hd := reverse_min_dist m ha he0 he1 R z hR _ hrefl
      have hdist := sol_dist m R z (phis, hs) ⟨hIcc, hReq, hzeq⟩
      simp only at hdist
      have hP1 : (Pmer m phis).1 = Nrad m phis * Real.cos phis := rfl
      rw [hP1, hP2] at hd
      simp only at hd
      have hzP : z * (Nrad m phis * m.e2m * Real.sin phis) < 0 := by
        rcases mul_neg_iff.1 hneg with ⟨hz1, hs1⟩ | ⟨hz1, hs1⟩
        · apply mul_neg_of_pos_of_neg hz1
          apply mul_neg_of_pos_of_neg (mul_pos hN hem) hs1
        · apply mul_neg_of_neg_of_pos hz1
          apply mul_pos (mul_pos hN hem) hs1
      nlinarith [hd, hdist, hzP]
    · exfalso
      rcases mul_eq_zero.1 hzero with h1 | h1
      · exact hz h1
      · rw [h1, mul_zero] at hzeq
        exact hz hzeq
    · exact hpos
  have hfac : 0 < (Nrad m phis * m.e2m + hs) * (z * Real.sin phis) := by
    have : z * (Real.sin phis) = (Nrad m phis * m.e2m + hs) * Real.sin phis ^ 2 := by
      rw [hzeq]; ring
    rw [this] at hsign
    have hs2 : 0 < Real.sin phis ^ 2 := by
      rcases eq_or_ne (Real.sin phis) 0 with h1 | h1
      · exfalso
        rw [h1, mul_zero] at hzeq
        exact hz hzeq
      · positivity
    nlinarith [hsign, hs2, sq_nonneg (Real.sin phis)]
  nlinarith [hfac, hsign]

theorem minset_reflect (m : ECEFModel) (R : ℝ) (p : ℝ × ℝ) (hp : p ∈ MinSet m R 0) :
    (-p.1, p.2) ∈ MinSet m R 0 := by
  obtain ⟨⟨hIcc, hReq, hzeq⟩, hmin⟩ := hp
  refine ⟨⟨?_, ?_, ?_⟩, ?_⟩
  · exact ⟨by linarith [hIcc.2], by linarith [hIcc.1]⟩
  · show R = (Nrad m (-p.1) + p.2) * Real.cos (-p.1)
    rw [Nrad_neg, Real.cos_neg]
    exact hReq
  · show (0 : ℝ) = (Nrad m (-p.1) * m.e2m + p.2) * Real.sin (-p.1)
    rw [Nrad_neg, Real.sin_neg]
    linear_combination -hzeq
  · exact hmin

theorem deg_bounds (phi : ℝ) (h : phi ∈ Icc (-(π / 2)) (π / 2)) :
    phi * 180 / π ∈ Icc (-90 : ℝ) 90 := by
  have hπ := Real.pi_pos
  have hpos : (0 : ℝ) < 180 / π := by positivity
  have h90 : π / 2 * (180 / π) = 90 := by field_simp; ring
  constructor
  · have := mul_le_mul_of_nonneg_right h.1 hpos.le
    calc (-90 : ℝ) = -(π / 2) * (180 / π) := by rw [neg_mul, h90]
      _ ≤ phi * (180 / π) := this
      _ = phi * 180 / π := by ring
  · have := mul_le_mul_of_nonneg_right h.2 hpos.le
    calc phi * 180 / π = phi * (180 / π) := by ring
      _ ≤ π / 2 * (180 / π) := this
      _ = 90 := h90

theorem rad_of_deg (phi : ℝ) : phi * 180 / π * π / 180 = phi := by
  field_simp

theorem valid_decomp (m : ECEFModel) (x y z lat' h' : ℝ)
    (hval : IsValidPair m x y z lat' h') :
    lat' * π / 180 ∈ Icc (-(π / 2)) (π / 2) ∧
    ((Nrad m (lat' * π / 180) + h') * Real.cos (lat' * π / 180)) ^ 2 = x ^ 2 + y ^ 2 ∧
    z = (Nrad m (lat' * π / 180) * m.e2m + h') * Real.sin (lat' * π / 180) := by
  obtain ⟨hIcc, lon', hfwd⟩ := hval
  rw [forward_eval] at hfwd
  have hx := congrArg Prod.fst hfwd
  have hy := congrArg (fun t => t.2.1) hfwd
  have hz := congrArg (fun t => t.2.2) hfwd
  simp only at hx hy hz
  refine ⟨⟨neg_half_le_rad lat' hIcc.1, rad_le_half lat' hIcc.2⟩, ?_, hz.symm⟩
  rw [← hx, ← hy]
  have hcs := Real.sin_sq_add_cos_sq (lon' * π / 180)
  linear_combination (-(((Nrad m (lat' * π / 180) + h') * Real.cos (lat' * π / 180)) ^ 2)) * hcs

end GeographicLib

namespace GeographicLib

theorem reverse_fwd (m : ECEFModel) (ha : 0 < m.a) (he0 : 0 ≤ m.e2) (he1 : m.e2 < 1)
    (x y z : ℝ) :
    Forward m (Reverse m x y z).1 (Reverse m x y z).2.1 (Reverse m x y z).2.2 = (x, y, z) := by
  have hR : 0 ≤ Real.sqrt (x ^ 2 + y ^ 2) := Real.sqrt_nonneg _
  obtain ⟨hIcc, hReq, hzeq⟩ := reverse_star_sol m ha he0 he1 (Real.sqrt (x ^ 2 + y ^ 2)) z hR
  simp only at hReq hzeq
  have hlat1 : (Reverse m x y z).1 = phiStar m (Real.sqrt (x ^ 2 + y ^ 2)) z * 180 / π := rfl
  have hh1 : (Reverse m x y z).2.2 =
      hOfPhi m (Real.sqrt (x ^ 2 + y ^ 2)) z (phiStar m (Real.sqrt (x ^ 2 + y ^ 2)) z) := rfl
  rw [forward_eval, hlat1, hh1, rad_of_deg]
  rcases eq_or_ne (Real.sqrt (x ^ 2 + y ^ 2)) 0 with h0 | h0
  · have hsq : x ^ 2 + y ^ 2 = 0 := by
      have h2 := Real.sq_sqrt (show (0:ℝ) ≤ x ^ 2 + y ^ 2 by positivity)
      rw [h0] at h2
      norm_num at h2
      linarith [h2.symm]
    have hx0 : x = 0 := by nlinarith [sq_nonneg x, sq_nonneg y]
    have hy0 : y = 0 := by nlinarith [sq_nonneg x, sq_nonneg y]
    have hlon : (Reverse m x y z).2.1 = 0 := by
      show (if Real.sqrt (x ^ 2 + y ^ 2) = 0 then (0:ℝ) else atan2 y x * 180 / π) = 0
      rw [if_pos h0]
    rw [hlon]
    have hRC : (Nrad m (phiStar m (Real.sqrt (x ^ 2 + y ^ 2)) z) +
        hOfPhi m (Real.sqrt (x ^ 2 + y ^ 2)) z (phiStar m (Real.sqrt (x ^ 2 + y ^ 2)) z)) *
        Real.cos (phiStar m (Real.sqrt (x ^ 2 + y ^ 2)) z) = 0 := by
      rw [← hReq, h0]
    refine Prod.ext ?_ (Prod.ext ?_ ?_)
    · show _ * Real.cos (0 * π / 180) = x
      rw [hRC, zero_mul, hx0]
    · show _ * Real.sin (0 * π / 180) = y
      rw [hRC, zero_mul, hy0]
    · exact hzeq.symm
  · have hlon : (Reverse m x y z).2.1 = atan2 y x * 180 / π := by
      show (if Real.sqrt (x ^ 2 + y ^ 2) = 0 then (0:ℝ) else atan2 y x * 180 / π) = _
      rw [if_neg h0]
    rw [hlon, rad_of_deg]
    have hne : Complex.mk x y ≠ 0 := by
      intro hc
      have hx : x = 0 := by simpa using congrArg Complex.re hc
      have hy : y = 0 := by simpa using congrArg Complex.im hc
      apply h0
      rw [hx, hy]
      norm_num
    have habs : Complex.abs (Complex.mk x y) = Real.sqrt (x ^ 2 + y ^ 2) := by
      rw [Complex.abs_apply, Complex.normSq_mk]
      ring_nf
    have hcos : Real.cos (atan2 y x) = x / Real.sqrt (x ^ 2 + y ^ 2) := by
      rw [atan2, Complex.cos_arg hne, habs]
    have hsin : Real.sin (atan2 y x) = y / Real.sqrt (x ^ 2 + y ^ 2) := by
      rw [atan2, Complex.sin_arg, habs]
    refine Prod.ext ?_ (Prod.ext ?_ ?_)
    · show _ * Real.cos (atan2 y x) = x
      rw [hcos, ← hReq, mul_comm, div_mul_cancel₀ x h0]
    · show _ * Real.sin (atan2 y x) = y
      rw [hsin, ← hReq, mul_comm, div_mul_cancel₀ y h0]
    · exact hzeq.symm

theorem reverse_valid (m : ECEFModel) (ha : 0 < m.a) (he0 : 0 ≤ m.e2) (he1 : m.e2 < 1)
    (x y z : ℝ) :
    IsValidPair m x y z (Reverse m x y z).1 (Reverse m x y z).2.2 := by
  have hR : 0 ≤ Real.sqrt (x ^ 2 + y ^ 2) := Real.sqrt_nonneg _
  obtain ⟨hIcc, hReq, hzeq⟩ := reverse_star_sol m ha he0 he1 (Real.sqrt (x ^ 2 + y ^ 2)) z hR
  refine ⟨?_, (Reverse m x y z).2.1, reverse_fwd m ha he0 he1 x y z⟩
  have hlat1 : (Reverse m x y z).1 = phiStar m (Real.sqrt (x ^ 2 + y ^ 2)) z * 180 / π := rfl
  rw [hlat1]
  exact deg_bounds _ hIcc

theorem reverse_min (m : ECEFModel) (ha : 0 < m.a) (he0 : 0 ≤ m.e2) (he1 : m.e2 < 1)
    (x y z lat' h' : ℝ) (hval : IsValidPair m x y z lat' h') :
    |(Reverse m x y z).2.2| ≤ |h'| := by
  have hR : 0 ≤ Real.sqrt (x ^ 2 + y ^ 2) := Real.sqrt_nonneg _
  obtain ⟨hψIcc, hv2, hzeq⟩ := valid_decomp m x y z lat' h' hval
  have hRsq : Real.sqrt (x ^ 2 + y ^ 2) ^ 2 = x ^ 2 + y ^ 2 :=
    Real.sq_sqrt (by positivity)
  set R := Real.sqrt (x ^ 2 + y ^ 2) with hRdef
  set ψ := lat' * π / 180 with hψdef
  set v := (Nrad m ψ + h') * Real.cos ψ with hvdef
  have hv2R : v ^ 2 = R ^ 2 := hv2.trans hRsq.symm
  have hvleR : v ≤ R := by
    by_contra hcon
    push_neg at hcon
    nlinarith [hv2R, hR]
  have hcψ : 0 ≤ Real.cos ψ := Real.cos_nonneg_of_mem_Icc ⟨hψIcc.1, hψIcc.2⟩
  have hNc : 0 ≤ Nrad m ψ * Real.cos ψ := mul_nonneg (Nrad_pos m ha he0 he1 ψ).le hcψ
  have hmd := reverse_min_dist m ha he0 he1 R z hR (Pmer m ψ) (Pmer_onEllipse m he0 he1 ψ)
  have hcs := Real.sin_sq_add_cos_sq ψ
  have hdecomp : h' ^ 2 = (v - Nrad m ψ * Real.cos ψ) ^ 2 +
      (z - Nrad m ψ * m.e2m * Real.sin ψ) ^ 2 := by
    rw [hvdef]
    linear_combination (-(h' ^ 2)) * hcs +
      (-(h' * Real.sin ψ + z - Nrad m ψ * m.e2m * Real.sin ψ)) * hzeq
  have hge : (R - Nrad m ψ * Real.cos ψ) ^ 2 ≤ (v - Nrad m ψ * Real.cos ψ) ^ 2 := by
    nlinarith [hv2R, mul_nonneg hNc (sub_nonneg.2 hvleR)]
  have hstar2 : (Reverse m x y z).2.2 ^ 2 ≤ h' ^ 2 := by
    have hP1 : (Pmer m ψ).1 = Nrad m ψ * Real.cos ψ := rfl
    have hP2 : (Pmer m ψ).2 = Nrad m ψ * m.e2m * Real.sin ψ := rfl
    rw [hP1, hP2] at hmd
    have hRh : (Reverse m x y z).2.2 = hOfPhi m R z (phiStar m R z) := rfl
    rw [hRh]
    calc hOfPhi m R z (phiStar m R z) ^ 2
        ≤ (R - Nrad m ψ * Real.cos ψ) ^ 2 +
          (z - Nrad m ψ * m.e2m * Real.sin ψ) ^ 2 := hmd
      _ ≤ (v - Nrad m ψ * Real.cos ψ) ^ 2 +
          (z - Nrad m ψ * m.e2m * Real.sin ψ) ^ 2 := by linarith [hge]
      _ = h' ^ 2 := hdecomp.symm
  by_contra hcon
  push_neg at hcon
  nlinarith [hstar2, sq_abs ((Reverse m x y z).2.2), sq_abs h', abs_nonneg h',
    abs_nonneg ((Reverse m x y z).2.2)]

end GeographicLib

namespace GeographicLib

theorem deg_of_rad (u : ℝ) : u * π / 180 * 180 / π = u := by
  field_simp

theorem focal_ineq (e c s : ℝ) (he2 : 0 < e) (he1 : e < 1) (hc : c < 1)
    (hcs : s ^ 2 + c ^ 2 = 1) : (1 - e + e * c) ^ 2 < 1 - e * s ^ 2 := by
  have key : (1 - e * s ^ 2) - (1 - e + e * c) ^ 2 =
      e * (1 - e) * (1 - c) ^ 2 - e * (s ^ 2 + c ^ 2 - 1) := by ring
  have h0 : s ^ 2 + c ^ 2 - 1 = 0 := by linarith
  rw [h0, mul_zero, sub_zero] at key
  nlinarith [key, mul_pos (mul_pos he2 (show (0:ℝ) < 1 - e by linarith))
    (pow_pos (show (0:ℝ) < 1 - c by linarith) 2)]

theorem focal_Nbound (m : ECEFModel) (ha : 0 < m.a) (he2 : 0 < m.e2) (he1 : m.e2 < 1)
    (phi : ℝ) (hc0 : 0 ≤ Real.cos phi) (hc1 : Real.cos phi < 1) :
    Nrad m phi * (m.e2m + m.e2 * Real.cos phi) < m.a := by
  have hcs := Real.sin_sq_add_cos_sq phi
  have hfi := focal_ineq m.e2 (Real.cos phi) (Real.sin phi) he2 he1 hc1 hcs
  have hem := e2m_pos m he1
  have hX : 0 ≤ m.e2m + m.e2 * Real.cos phi := by
    have := mul_nonneg he2.le hc0
    linarith
  have hsq := sqrtOneSubE2SinSq_pos m he2.le he1 phi
  have hXlt : m.e2m + m.e2 * Real.cos phi <
      Real.sqrt (1 - m.e2 * Real.sin phi ^ 2) := by
    apply (Real.lt_sqrt hX).2
    calc (m.e2m + m.e2 * Real.cos phi) ^ 2
        = (1 - m.e2 + m.e2 * Real.cos phi) ^ 2 := by rw [e2m_def]
      _ < 1 - m.e2 * Real.sin phi ^ 2 := hfi
  rw [Nrad, div_mul_eq_mul_div, div_lt_iff₀ hsq]
  exact (mul_lt_mul_left ha).2 hXlt

theorem focal_sol (m : ECEFModel) (he0 : 0 ≤ m.e2) (he1 : m.e2 < 1) (R : ℝ)
    (hR0 : 0 < R) (hRlt : R < m.a * m.e2) :
    ∃ phi ∈ Icc (0 : ℝ) (π / 2), Nrad m phi * m.e2 * Real.cos phi = R := by
  have hcont : ContinuousOn (fun t => Nrad m t * m.e2 * Real.cos t) (Icc 0 (π / 2)) :=
    (((Nrad_continuous m he0 he1).mul continuous_const).mul Real.continuous_cos).continuousOn
  have hmem : R ∈ Icc ((fun t => Nrad m t * m.e2 * Real.cos t) (π / 2))
      ((fun t => Nrad m t * m.e2 * Real.cos t) 0) := by
    constructor
    · show (fun t => Nrad m t * m.e2 * Real.cos t) (π / 2) ≤ R
      simp only
      rw [Real.cos_pi_div_two, mul_zero]
      exact hR0.le
    · show R ≤ (fun t => Nrad m t * m.e2 * Real.cos t) 0
      simp only
      rw [Real.cos_zero, Nrad_zero, mul_one]
      exact hRlt.le
  obtain ⟨phi, hphimem, hphival⟩ :=
    intermediate_value_Icc' (by positivity : (0:ℝ) ≤ π / 2) hcont hmem
  simp only at hphival
  exact ⟨phi, hphimem, hphival⟩

theorem phiStar_nonneg (m : ECEFModel) (ha : 0 < m.a) (he0 : 0 ≤ m.e2) (he1 : m.e2 < 1)
    (R : ℝ) (hR : 0 ≤ R) : 0 ≤ phiStar m R 0 := by
  obtain ⟨hM, hUB⟩ := reverse_char m ha he0 he1 R 0 hR
  have h2 := minset_reflect m R _ hM
  have h3 := hUB _ h2
  simp only at h3
  linarith

theorem reverse_h_bound_z0 (m : ECEFModel) (ha : 0 < m.a) (he0 : 0 ≤ m.e2) (he1 : m.e2 < 1)
    (R : ℝ) (hR : 0 ≤ R) :
    -(Nrad m (phiStar m R 0) * m.e2m) ≤ hOfPhi m R 0 (phiStar m R 0) := by
  obtain ⟨hIccs, hReqs, hzeqs⟩ := reverse_star_sol m ha he0 he1 R 0 hR
  simp only at hReqs hzeqs
  rcases eq_or_ne (Real.sin (phiStar m R 0)) 0 with hs0 | hsne
  · have hφ0 : phiStar m R 0 = 0 := sin_eq_zero_Icc _ hIccs hs0
    have hcos : Real.cos (0 : ℝ) ≠ 0 := by rw [Real.cos_zero]; norm_num
    have hval : hOfPhi m R 0 0 = R - m.a := by
      rw [hOfPhi, if_neg hcos, Real.cos_zero, Nrad_zero, div_one]
    rw [hφ0, hval, Nrad_zero]
    have hae2 : m.a * m.e2 ≤ R := by
      by_contra hcon
      push_neg at hcon
      have he2pos : 0 < m.e2 := by
        rcases lt_or_eq_of_le he0 with h | h
        · exact h
        · exfalso
          rw [← h, mul_zero] at hcon
          linarith
      have hRpos : 0 < R := by
        rcases lt_or_eq_of_le hR with h | h
        · exact h
        · exfalso
          have hctr := phiStar_center m ha he0 he1
          rw [← h] at hφ0
          rw [hφ0] at hctr
          linarith [Real.pi_pos]
      obtain ⟨phi2, hmem2, hval2⟩ := focal_sol m he0 he1 R hRpos hcon
      have hIcc2 : phi2 ∈ Icc (-(π / 2)) (π / 2) :=
        ⟨by linarith [hmem2.1, Real.pi_pos], hmem2.2⟩
      have hsol2 : (phi2, -(Nrad m phi2 * m.e2m)) ∈ SolSet m R 0 := by
        refine ⟨hIcc2, ?_, ?_⟩
        · show R = (Nrad m phi2 + -(Nrad m phi2 * m.e2m)) * Real.cos phi2
          linear_combination -hval2 + Nrad m phi2 * Real.cos phi2 * e2m_def m
        · show (0 : ℝ) = (Nrad m phi2 * m.e2m + -(Nrad m phi2 * m.e2m)) * Real.sin phi2
          ring
      have hmin := (reverse_char m ha he0 he1 R 0 hR).1.2 _ hsol2
      simp only at hmin
      rw [hφ0, hval] at hmin
      have hN2 := Nrad_pos m ha he0 he1 phi2
      have hem := e2m_pos m he1
      have hRa : R < m.a := by nlinarith [mul_lt_mul_of_pos_left he1 ha]
      rw [abs_of_neg (by linarith : R - m.a < 0), abs_neg,
        abs_of_pos (mul_pos hN2 hem)] at hmin
      have hc2lt : Real.cos phi2 < 1 := by
        rcases lt_or_eq_of_le (Real.cos_le_one phi2) with h | h
        · exact h
        · exfalso
          have hcs := Real.sin_sq_add_cos_sq phi2
          rw [h] at hcs
          have hsq2 : Real.sin phi2 ^ 2 = 0 := by nlinarith [hcs]
          have hs2 : Real.sin phi2 = 0 :=
            (pow_eq_zero_iff (by norm_num : (2:ℕ) ≠ 0)).1 hsq2
          have hphi20 : phi2 = 0 := sin_eq_zero_Icc phi2 hIcc2 hs2
          rw [hphi20, Nrad_zero, Real.cos_zero, mul_one] at hval2
          linarith
      have hc20 : 0 ≤ Real.cos phi2 := Real.cos_nonneg_of_mem_Icc hIcc2
      have hfb := focal_Nbound m ha he2pos he1 phi2 hc20 hc2lt
      have hexp : Nrad m phi2 * (m.e2m + m.e2 * Real.cos phi2) =
          Nrad m phi2 * m.e2m + Nrad m phi2 * m.e2 * Real.cos phi2 := by ring
      rw [hexp, hval2] at hfb
      linarith
    rw [e2m_def]
    nlinarith [hae2]
  · have hsum : Nrad m (phiStar m R 0) * m.e2m + hOfPhi m R 0 (phiStar m R 0) = 0 := by
      rcases mul_eq_zero.1 hzeqs.symm with h1 | h1
      · exact h1
      · exact absurd h1 hsne
    linarith

end GeographicLib

namespace GeographicLib

/-- C3: the height returned by the reverse transform satisfies the lower
bound h >= -a (1 - e^2) / sqrt(1 - e^2 sin^2 lat) stated in the spec
(section 4.3, requirement 5) and in the header documentation of
ECEF::Reverse, where lat is the returned latitude (converted to radians)
and a (1 - e^2) = a e2m. -/
theorem claim_C3_lower_bound (m : ECEFModel) (ha : 0 < m.a) (he0 : 0 ≤ m.e2)
    (he1 : m.e2 < 1) (x y z : ℝ) :
    -(m.a * m.e2m) /
        Real.sqrt (1 - m.e2 * Real.sin ((Reverse m x y z).1 * π / 180) ^ 2) ≤
      (Reverse m x y z).2.2 := by
  have hR : 0 ≤ Real.sqrt (x ^ 2 + y ^ 2) := Real.sqrt_nonneg _
  have hlatrad : (Reverse m x y z).1 * π / 180 =
      phiStar m (Real.sqrt (x ^ 2 + y ^ 2)) z := by
    show phiStar m (Real.sqrt (x ^ 2 + y ^ 2)) z * 180 / π * π / 180 = _
    exact rad_of_deg _
  have hh : (Reverse m x y z).2.2 = hOfPhi m (Real.sqrt (x ^ 2 + y ^ 2)) z
      (phiStar m (Real.sqrt (x ^ 2 + y ^ 2)) z) := rfl
  rw [hlatrad, hh]
  have hbnd : -(m.a * m.e2m) /
      Real.sqrt (1 - m.e2 * Real.sin (phiStar m (Real.sqrt (x ^ 2 + y ^ 2)) z) ^ 2) =
      -(Nrad m (phiStar m (Real.sqrt (x ^ 2 + y ^ 2)) z) * m.e2m) := by
    rw [Nrad, div_mul_eq_mul_div, neg_div]
  rw [hbnd]
  rcases eq_or_ne z 0 with hz0 | hzne
  · subst hz0
    exact reverse_h_bound_z0 m ha he0 he1 (Real.sqrt (x ^ 2 + y ^ 2)) hR
  · exact (reverse_sign m ha he0 he1 (Real.sqrt (x ^ 2 + y ^ 2)) z hR hzne).le

/-- Witness for C3 at the concrete ellipsoid a = 2, e2 = 3/4 and the
concrete input (0, 0, 0): the hypotheses hold and the bound applies. -/
theorem claim_C3_lower_bound_witness :
    (0 : ℝ) < mEx.a ∧ (0 : ℝ) ≤ mEx.e2 ∧ mEx.e2 < 1 ∧
    -(mEx.a * mEx.e2m) /
        Real.sqrt (1 - mEx.e2 * Real.sin ((Reverse mEx 0 0 0).1 * π / 180) ^ 2) ≤
      (Reverse mEx 0 0 0).2.2 :=
  ⟨by norm_num [mEx_a], by norm_num [mEx_e2], by norm_num [mEx_e2],
    claim_C3_lower_bound mEx (by norm_num [mEx_a]) (by norm_num [mEx_e2])
      (by norm_num [mEx_e2]) 0 0 0⟩

end GeographicLib

namespace GeographicLib

theorem le_of_sq_eq_sq (a b : ℝ) (hb : 0 ≤ b) (h : a ^ 2 = b ^ 2) : a ≤ b := by
  by_contra hcon
  push_neg at hcon
  nlinarith

theorem tie_z_ne_zero (m : ECEFModel) (ha : 0 < m.a) (he0 : 0 ≤ m.e2) (he1 : m.e2 < 1)
    (x y z lat' h' : ℝ) (hz : z ≠ 0) (hval : IsValidPair m x y z lat' h')
    (habs : |h'| = |(Reverse m x y z).2.2|) :
    lat' = (Reverse m x y z).1 ∧ h' = (Reverse m x y z).2.2 := by
  have hR : 0 ≤ Real.sqrt (x ^ 2 + y ^ 2) := Real.sqrt_nonneg _
  have hRsq : Real.sqrt (x ^ 2 + y ^ 2) ^ 2 = x ^ 2 + y ^ 2 :=
    Real.sq_sqrt (by positivity)
  have hrev1 : (Reverse m x y z).1 =
      phiStar m (Real.sqrt (x ^ 2 + y ^ 2)) z * 180 / π := rfl
  have hrev22 : (Reverse m x y z).2.2 = hOfPhi m (Real.sqrt (x ^ 2 + y ^ 2)) z
      (phiStar m (Real.sqrt (x ^ 2 + y ^ 2)) z) := rfl
  set R := Real.sqrt (x ^ 2 + y ^ 2) with hRdef
  obtain ⟨hIccs, hReqs, hzeqs⟩ := reverse_star_sol m ha he0 he1 R z hR
  simp only at hReqs hzeqs
  have hsign := reverse_sign m ha he0 he1 R z hR hz
  obtain ⟨hψIcc, hv2, hzeq⟩ := valid_decomp m x y z lat' h' hval
  have hmd := reverse_min_dist m ha he0 he1 R z hR (Pmer m (lat' * π / 180))
    (Pmer_onEllipse m he0 he1 (lat' * π / 180))
  have hP1 : (Pmer m (lat' * π / 180)).1 =
      Nrad m (lat' * π / 180) * Real.cos (lat' * π / 180) := rfl
  have hP2 : (Pmer m (lat' * π / 180)).2 =
      Nrad m (lat' * π / 180) * m.e2m * Real.sin (lat' * π / 180) := rfl
  rw [hP1, hP2] at hmd
  have hcs := Real.sin_sq_add_cos_sq (lat' * π / 180)
  set ψ := lat' * π / 180 with hψdef
  set phis := phiStar m R z with hphidef
  set hs := hOfPhi m R z phis with hhsdef
  set v := (Nrad m ψ + h') * Real.cos ψ with hvdef
  rw [hrev22] at habs
  have hv2R : v ^ 2 = R ^ 2 := hv2.trans hRsq.symm
  have hvleR : v ≤ R := le_of_sq_eq_sq v R hR hv2R
  have hcψ : 0 ≤ Real.cos ψ := Real.cos_nonneg_of_mem_Icc hψIcc
  have hNψ := Nrad_pos m ha he0 he1 ψ
  have hNc : 0 ≤ Nrad m ψ * Real.cos ψ := mul_nonneg hNψ.le hcψ
  have hdecomp : h' ^ 2 = (v - Nrad m ψ * Real.cos ψ) ^ 2 +
      (z - Nrad m ψ * m.e2m * Real.sin ψ) ^ 2 := by
    rw [hvdef]
    linear_combination (-(h' ^ 2)) * hcs +
      (-(h' * Real.sin ψ + z - Nrad m ψ * m.e2m * Real.sin ψ)) * hzeq
  have hfac : (v - Nrad m ψ * Real.cos ψ) ^ 2 - (R - Nrad m ψ * Real.cos ψ) ^ 2 =
      2 * (Nrad m ψ * Real.cos ψ) * (R - v) := by
    linear_combination hv2R
  have hprod : 0 ≤ 2 * (Nrad m ψ * Real.cos ψ) * (R - v) := by
    have h9 := mul_nonneg hNc (sub_nonneg.2 hvleR)
    linarith [h9]
  have hge : (R - Nrad m ψ * Real.cos ψ) ^ 2 ≤ (v - Nrad m ψ * Real.cos ψ) ^ 2 := by
    linarith [hfac, hprod]
  have hsq_eq : h' ^ 2 = hs ^ 2 := by
    rw [← sq_abs h', ← sq_abs hs, habs]
  have hchain : (R - Nrad m ψ * Real.cos ψ) ^ 2 +
      (z - Nrad m ψ * m.e2m * Real.sin ψ) ^ 2 = hs ^ 2 := by
    have h1 : (R - Nrad m ψ * Real.cos ψ) ^ 2 +
        (z - Nrad m ψ * m.e2m * Real.sin ψ) ^ 2 ≤ h' ^ 2 := by
      rw [hdecomp]
      linarith [hge]
    linarith [hmd, h1, hsq_eq]
  have hPeq : Pmer m ψ = Pmer m phis := by
    by_contra hne
    have hb := beats m ha he0 he1 phis hs hsign (Pmer m ψ)
      (Pmer_onEllipse m he0 he1 ψ) hne
    rw [hP1, hP2] at hb
    rw [← hReqs, ← hzeqs] at hb
    linarith [hb, hchain]
  have hψeq : ψ = phis := Pmer_inj m ha he0 he1 ψ phis hψIcc hIccs hPeq
  have hheq : h' = hs := by
    rcases eq_or_ne (Real.cos ψ) 0 with hc0 | hcne
    · have hsψ : Real.sin ψ ≠ 0 := by
        intro hcon
        have h2 := Real.sin_sq_add_cos_sq ψ
        rw [hcon, hc0] at h2
        norm_num at h2
      rw [← hψeq] at hzeqs
      have h3 : (Nrad m ψ * m.e2m + h') * Real.sin ψ =
          (Nrad m ψ * m.e2m + hs) * Real.sin ψ := by
        rw [← hzeq, ← hzeqs]
      have h4 := mul_right_cancel₀ hsψ h3
      linarith [h4]
    · have hgeEq : (v - Nrad m ψ * Real.cos ψ) ^ 2 =
          (R - Nrad m ψ * Real.cos ψ) ^ 2 := by
        linarith [hchain, hdecomp, hsq_eq]
      have hNcpos : 0 < Nrad m ψ * Real.cos ψ :=
        mul_pos hNψ (lt_of_le_of_ne hcψ (Ne.symm hcne))
      have hkey : 2 * (Nrad m ψ * Real.cos ψ) * (R - v) = 0 := by
        linear_combination hgeEq - hv2R
      have hvR : v = R := by
        rcases mul_eq_zero.1 hkey with h1 | h1
        · exfalso
          linarith [hNcpos]
        · linarith [h1]
      rw [← hψeq] at hReqs
      have h3 : (Nrad m ψ + h') * Real.cos ψ = (Nrad m ψ + hs) * Real.cos ψ := by
        rw [← hvdef, hvR, hReqs]
      have h4 := mul_right_cancel₀ hcne h3
      linarith [h4]
  constructor
  · rw [hrev1, ← hψeq, hψdef, deg_of_rad]
  · rw [hrev22]
    exact hheq

end GeographicLib

namespace GeographicLib

theorem tie_z0_phi_pos (m : ECEFModel) (ha : 0 < m.a) (he0 : 0 ≤ m.e2) (he1 : m.e2 < 1)
    (x y lat' h' : ℝ) (hval : IsValidPair m x y 0 lat' h')
    (habs : |h'| = |(Reverse m x y 0).2.2|)
    (hne : (lat', h') ≠ ((Reverse m x y 0).1, (Reverse m x y 0).2.2)) :
    0 < (Reverse m x y 0).1 := by
  have hR : 0 ≤ Real.sqrt (x ^ 2 + y ^ 2) := Real.sqrt_nonneg _
  have hRsq : Real.sqrt (x ^ 2 + y ^ 2) ^ 2 = x ^ 2 + y ^ 2 :=
    Real.sq_sqrt (by positivity)
  have hrev1 : (Reverse m x y 0).1 =
      phiStar m (Real.sqrt (x ^ 2 + y ^ 2)) 0 * 180 / π := rfl
  have hrev22 : (Reverse m x y 0).2.2 = hOfPhi m (Real.sqrt (x ^ 2 + y ^ 2)) 0
      (phiStar m (Real.sqrt (x ^ 2 + y ^ 2)) 0) := rfl
  set R := Real.sqrt (x ^ 2 + y ^ 2) with hRdef
  have hphinn := phiStar_nonneg m ha he0 he1 R hR
  rcases lt_or_eq_of_le hphinn with hpos | hzero
  · rw [hrev1]
    have hpi : (0:ℝ) < 180 / π := by positivity
    calc (0:ℝ) = 0 * (180 / π) := by ring
      _ < phiStar m R 0 * (180 / π) := mul_lt_mul_of_pos_right hpos hpi
      _ = phiStar m R 0 * 180 / π := by ring
  · exfalso
    have hφ0 : phiStar m R 0 = 0 := hzero.symm
    have hcosne : Real.cos (0:ℝ) ≠ 0 := by rw [Real.cos_zero]; norm_num
    have hhval : hOfPhi m R 0 0 = R - m.a := by
      rw [hOfPhi, if_neg hcosne, Real.cos_zero, Nrad_zero, div_one]
    rw [hrev22, hφ0, hhval] at habs
    obtain ⟨hψIcc, hv2, hzeq⟩ := valid_decomp m x y 0 lat' h' hval
    have hcψ : 0 ≤ Real.cos (lat' * π / 180) := Real.cos_nonneg_of_mem_Icc hψIcc
    have hNψ := Nrad_pos m ha he0 he1 (lat' * π / 180)
    have hem := e2m_pos m he1
    have hv2R : ((Nrad m (lat' * π / 180) + h') * Real.cos (lat' * π / 180)) ^ 2 =
        R ^ 2 := hv2.trans hRsq.symm
    rcases eq_or_ne (Real.sin (lat' * π / 180)) 0 with hs0 | hsne
    · have hψ0 : lat' * π / 180 = 0 := sin_eq_zero_Icc _ hψIcc hs0
      have hlat0 : lat' = 0 := by
        have h2 : lat' = lat' * π / 180 * 180 / π := (deg_of_rad lat').symm
        rw [hψ0] at h2
        rw [zero_mul, zero_div] at h2
        exact h2
      rw [hψ0, Nrad_zero, Real.cos_zero, mul_one] at hv2R
      have hfac : (m.a + h' - R) * (m.a + h' + R) = 0 := by linear_combination hv2R
      rcases mul_eq_zero.1 hfac with h1 | h1
      · apply hne
        have hh' : h' = R - m.a := by linarith [h1]
        have hlatstar : (Reverse m x y 0).1 = 0 := by
          rw [hrev1, hφ0, zero_mul, zero_div]
        have hhstar : (Reverse m x y 0).2.2 = R - m.a := by
          rw [hrev22, hφ0, hhval]
        rw [hlatstar, hhstar, hlat0, hh']
      · have hh' : h' = -R - m.a := by linarith [h1]
        have habs1 : |h'| = R + m.a := by
          rw [hh', abs_of_neg (by linarith : -R - m.a < 0)]
          ring
        rw [habs1] at habs
        have hR0 : R = 0 := by
          rcases abs_cases (R - m.a) with ⟨he, _⟩ | ⟨he, _⟩
          · rw [he] at habs
            linarith [habs, ha]
          · rw [he] at habs
            linarith [habs]
        have hctr := phiStar_center m ha he0 he1
        rw [hR0] at hφ0
        rw [hφ0] at hctr
        linarith [Real.pi_pos]
    · have hsum : Nrad m (lat' * π / 180) * m.e2m + h' = 0 := by
        rcases mul_eq_zero.1 hzeq.symm with h1 | h1
        · exact h1
        · exact absurd h1 hsne
      have hh' : h' = -(Nrad m (lat' * π / 180) * m.e2m) := by linarith
      have hveq : (Nrad m (lat' * π / 180) + h') * Real.cos (lat' * π / 180) =
          Nrad m (lat' * π / 180) * m.e2 * Real.cos (lat' * π / 180) := by
        rw [hh', e2m_def]
        ring
      rw [hveq] at hv2R
      have hvnn : 0 ≤ Nrad m (lat' * π / 180) * m.e2 * Real.cos (lat' * π / 180) :=
        mul_nonneg (mul_nonneg hNψ.le he0) hcψ
      have hvR : Nrad m (lat' * π / 180) * m.e2 * Real.cos (lat' * π / 180) = R := by
        have h1 := le_of_sq_eq_sq _ R hR hv2R
        have h2 := le_of_sq_eq_sq R _ hvnn hv2R.symm
        linarith
      have he2pos : 0 < m.e2 := by
        rcases lt_or_eq_of_le he0 with h | h
        · exact h
        · exfalso
          have hR0 : R = 0 := by
            rw [← hvR, ← h]
            ring
          have hctr := phiStar_center m ha he0 he1
          rw [hR0] at hφ0
          rw [hφ0] at hctr
          linarith [Real.pi_pos]
      have hc1 : Real.cos (lat' * π / 180) < 1 := by
        rcases lt_or_eq_of_le (Real.cos_le_one (lat' * π / 180)) with h | h
        · exact h
        · exfalso
          have hcs := Real.sin_sq_add_cos_sq (lat' * π / 180)
          rw [h] at hcs
          have hsq0 : Real.sin (lat' * π / 180) ^ 2 = 0 := by linarith [hcs]
          exact hsne ((pow_eq_zero_iff (by norm_num : (2:ℕ) ≠ 0)).1 hsq0)
      have hfb := focal_Nbound m ha he2pos he1 (lat' * π / 180) hcψ hc1
      have hexp : Nrad m (lat' * π / 180) * (m.e2m + m.e2 * Real.cos (lat' * π / 180)) =
          Nrad m (lat' * π / 180) * m.e2m +
            Nrad m (lat' * π / 180) * m.e2 * Real.cos (lat' * π / 180) := by ring
      rw [hexp, hvR] at hfb
      have habs2 : |h'| = Nrad m (lat' * π / 180) * m.e2m := by
        rw [hh', abs_neg, abs_of_pos (mul_pos hNψ hem)]
      rw [habs2] at habs
      have hRa : R < m.a := by linarith [mul_pos hNψ hem, hfb]
      rw [abs_of_neg (by linarith : R - m.a < 0)] at habs
      linarith [habs, hfb]

end GeographicLib

namespace GeographicLib

/-- C2: the reverse transform implements the tie-break policy of the spec
(section 4.3, requirement 4) and of the header documentation of
ECEF::Reverse: the returned latitude/height pair is a valid solution; it
minimizes the absolute height over all valid pairs; if a different valid
pair achieves the same absolute height, then necessarily z = 0 and the
returned latitude is positive; and on the polar axis (x = y = 0) the
returned longitude is 0. -/
theorem claim_C2_tiebreak (m : ECEFModel) (ha : 0 < m.a) (he0 : 0 ≤ m.e2)
    (he1 : m.e2 < 1) (x y z : ℝ) :
    IsValidPair m x y z (Reverse m x y z).1 (Reverse m x y z).2.2 ∧
    (∀ lat' h', IsValidPair m x y z lat' h' → |(Reverse m x y z).2.2| ≤ |h'|) ∧
    (∀ lat' h', IsValidPair m x y z lat' h' → |h'| = |(Reverse m x y z).2.2| →
      (lat', h') ≠ ((Reverse m x y z).1, (Reverse m x y z).2.2) →
      z = 0 ∧ 0 < (Reverse m x y z).1) ∧
    (x = 0 ∧ y = 0 → (Reverse m x y z).2.1 = 0) := by
  refine ⟨reverse_valid m ha he0 he1 x y z,
    fun lat' h' hval => reverse_min m ha he0 he1 x y z lat' h' hval, ?_, ?_⟩
  · intro lat' h' hval habs hne
    rcases eq_or_ne z 0 with hz0 | hzne
    · subst hz0
      exact ⟨rfl, tie_z0_phi_pos m ha he0 he1 x y lat' h' hval habs hne⟩
    · exfalso
      have h2 := tie_z_ne_zero m ha he0 he1 x y z lat' h' hzne hval habs
      exact hne (Prod.ext h2.1 h2.2)
  · rintro ⟨hx0, hy0⟩
    subst hx0
    subst hy0
    have h00 : Real.sqrt ((0:ℝ) ^ 2 + 0 ^ 2) = 0 := by
      rw [show ((0:ℝ) ^ 2 + 0 ^ 2 : ℝ) = 0 from by norm_num]
      exact Real.sqrt_zero
    show (if Real.sqrt ((0:ℝ) ^ 2 + 0 ^ 2) = 0 then (0:ℝ)
        else atan2 0 0 * 180 / π) = 0
    rw [if_pos h00]

/-- Witness for C2 at the concrete ellipsoid a = 2, e2 = 3/4 and the
concrete input (0, 0, 5): the hypotheses hold and the tie-break
characterization applies. -/
theorem claim_C2_tiebreak_witness :
    (0 : ℝ) < mEx.a ∧ (0 : ℝ) ≤ mEx.e2 ∧ mEx.e2 < 1 ∧
    (IsValidPair mEx 0 0 5 (Reverse mEx 0 0 5).1 (Reverse mEx 0 0 5).2.2 ∧
    (∀ lat' h', IsValidPair mEx 0 0 5 lat' h' → |(Reverse mEx 0 0 5).2.2| ≤ |h'|) ∧
    (∀ lat' h', IsValidPair mEx 0 0 5 lat' h' → |h'| = |(Reverse mEx 0 0 5).2.2| →
      (lat', h') ≠ ((Reverse mEx 0 0 5).1, (Reverse mEx 0 0 5).2.2) →
      (5 : ℝ) = 0 ∧ 0 < (Reverse mEx 0 0 5).1) ∧
    ((0 : ℝ) = 0 ∧ (0 : ℝ) = 0 → (Reverse mEx 0 0 5).2.1 = 0)) :=
  ⟨by norm_num [mEx_a], by norm_num [mEx_e2], by norm_num [mEx_e2],
    claim_C2_tiebreak mEx (by norm_num [mEx_a]) (by norm_num [mEx_e2])
      (by norm_num [mEx_e2]) 0 0 5⟩

end GeographicLib
